import Mathlib

/-!
Verification of the BugTree repository (trees.py and circTrees.py).

Both scripts draw a Biopython `Phylo` tree: `trees.py` in rectangular
coordinates, `circTrees.py` in polar coordinates.  The scripts copy
Biopython's `draw` routine and customise it (label highlighting, polar
axes).  We embed the tree data model, the layout computations
(`get_x_positions`, `get_y_positions`, Biopython's `Tree.depths`), the
recursive drawing routine `draw_clade` (as a trace of drawing commands),
the keyword-argument processing, and the file naming of `drawTree`.

Clades are addressed by their *path* from the root (the list of child
indices); Python's dicts keyed by clade object identity become
association lists keyed by path.  Numeric float values are idealised as
rationals (`ℚ`) where the source computes with plain arithmetic, and as
reals (`ℝ`) in the polar script where the constant `2 * np.pi` appears.
-/

/-- A path from the root of a tree to a clade: the list of child indices
taken at each level.  The root has path `[]`. -/
abbrev CPath := List Nat

/-- Biopython `Bio.Phylo.BaseTree.Clade`: `branch_length`, `confidence`,
`name`, `width` and `color` are optional attributes; `clades` is the list
of children.  (`color` holds the colour token; `BranchColor.to_hex()` is
modelled as the stored token itself, since the claims only concern which
clade's colour is used, not its hex encoding.) -/
inductive Clade : Type where
  | mk (branch_length : Option ℚ) (confidence : Option ℚ) (name : Option String)
       (width : Option ℚ) (color : Option String) (clades : List Clade)

def Clade.branch_length : Clade → Option ℚ
  | .mk bl _ _ _ _ _ => bl

def Clade.confidence : Clade → Option ℚ
  | .mk _ cf _ _ _ _ => cf

def Clade.name : Clade → Option String
  | .mk _ _ nm _ _ _ => nm

def Clade.width : Clade → Option ℚ
  | .mk _ _ _ w _ _ => w

def Clade.color : Clade → Option String
  | .mk _ _ _ _ col _ => col

def Clade.clades : Clade → List Clade
  | .mk _ _ _ _ _ cs => cs

/-- The clade reached from `c` by following the child indices in `p`
(`none` if the path leaves the tree). -/
def subclade : Clade → CPath → Option Clade
  | c, [] => some c
  | c, i :: r =>
    match c.clades[i]? with
    | some ci => subclade ci r
    | none => none

mutual

/-- Biopython `tree.get_terminals()` restricted to paths: the paths of
all terminal clades (clades with no children), in preorder
(left-to-right) order.  A childless root is itself terminal. -/
def terminalPaths : Clade → CPath → List CPath
  | .mk _ _ _ _ _ [], p => [p]
  | .mk _ _ _ _ _ (c :: cs), p => terminalPathsAux (c :: cs) p 0

def terminalPathsAux : List Clade → CPath → Nat → List CPath
  | [], _, _ => []
  | c :: cs, p, i => terminalPaths c (p ++ [i]) ++ terminalPathsAux cs p (i + 1)

end

/-- Biopython `tree.count_terminals()`. -/
def count_terminals (t : Clade) : Nat := (terminalPaths t []).length

/-- Association list from paths to coordinates, standing in for the
Python dicts `{clade: coord}` (keyed by object identity, which paths
model faithfully for tree-shaped data). -/
abbrev HMap (α : Type) := List (CPath × α)

/-- Dict lookup: first entry whose key equals `p`. -/
def hfind {α : Type} (p : CPath) : HMap α → Option α
  | [] => none
  | e :: h => if e.1 = p then some e.2 else hfind p h

/-- Python `dict[key]` where the key is known to be present; absent keys
yield a default (the source would raise `KeyError`; claim C9 proves the
default is never consulted). -/
def dget {α : Type} [Zero α] (o : Option α) : α := o.getD 0

/-- Ancestor-or-self relation on paths: `p` is an initial segment of `q`. -/
def CPath.under (p q : CPath) : Prop := ∃ r, q = p ++ r

/-! ### Vertical positions (`get_y_positions`, both scripts)

The two scripts differ only in the value given to the `i`-th tip of
`reversed(tree.get_terminals())`:

* `trees.py`:  `maxheight - i` with `maxheight = tree.count_terminals()`;
* `circTrees.py`: `maxheight * (1 - i / tree.count_terminals())` with
  `maxheight = 2 * np.pi`.

The shared recursion `calc_row` places each internal clade at the
midpoint of its first and last child.  We keep the computation generic
in the coordinate field `α` and in the tip-value function. -/

/-- The dict comprehension
`{tip: tipVal i for i, tip in enumerate(reversed(terminals))}`,
as an association list (`i` is the running index, starting at `start`). -/
def tipEntries {α : Type} (tipVal : Nat → α) : Nat → List CPath → HMap α
  | _, [] => []
  | i, q :: l => (q, tipVal i) :: tipEntries tipVal (i + 1) l

/-- Initial `heights` dict of `get_y_positions`. -/
def tipHeights {α : Type} (tipVal : Nat → α) (t : Clade) : HMap α :=
  tipEntries tipVal 0 (terminalPaths t []).reverse

mutual

/-- The recursive `calc_row` of `get_y_positions` (both scripts): first
process every child not yet in `heights`, then set
`heights[clade] = (heights[clade.clades[0]] + heights[clade.clades[-1]]) / 2`.
State (the `heights` dict) is threaded explicitly; insertion prepends,
so lookups see the latest binding, as in a Python dict. -/
def calc_row {α : Type} [LinearOrderedField α] : Clade → CPath → HMap α → HMap α
  | .mk _ _ _ _ _ cs, p, h =>
    let h2 := calc_children cs p 0 h
    (p, (dget (hfind (p ++ [0]) h2) + dget (hfind (p ++ [cs.length - 1]) h2)) / 2) :: h2

def calc_children {α : Type} [LinearOrderedField α] : List Clade → CPath → Nat → HMap α → HMap α
  | [], _, _, h => h
  | c :: cs, p, i, h =>
    let h' := if (hfind (p ++ [i]) h).isSome then h else calc_row c (p ++ [i]) h
    calc_children cs p (i + 1) h'

end

/-- `get_y_positions` (both scripts), generic in the per-tip value:
build the tip dict, then `if tree.root.clades: calc_row(tree.root)`. -/
def get_y_positions_gen {α : Type} [LinearOrderedField α] (tipVal : Nat → α) (t : Clade) : HMap α :=
  let heights := tipHeights tipVal t
  if t.clades.isEmpty then heights else calc_row t [] heights

/-- Tip value of `trees.py`: `maxheight - i`. -/
def rectTipVal (maxheight : Nat) (i : Nat) : ℚ := (maxheight : ℚ) - (i : ℚ)

/-- `get_y_positions` of `trees.py`. -/
def rect_get_y_positions (t : Clade) : HMap ℚ :=
  get_y_positions_gen (rectTipVal (count_terminals t)) t

/-- Tip value of `circTrees.py`: `maxheight * (1 - i / n)`
with `maxheight = 2 * np.pi` and `n = tree.count_terminals()`. -/
noncomputable def circTipVal (n : Nat) (i : Nat) : ℝ :=
  (2 * Real.pi) * (1 - (i : ℝ) / (n : ℝ))

/-- `get_y_positions` of `circTrees.py`. -/
noncomputable def circ_get_y_positions (t : Clade) : HMap ℝ :=
  get_y_positions_gen (circTipVal (count_terminals t)) t

/-! ### Horizontal positions (`get_x_positions`, both scripts) -/

/-- Biopython `depth_of` inside `Tree.depths`: `1` for unit branch
lengths, else `clade.branch_length or 0`. -/
def depth_of (unit : Bool) (c : Clade) : ℚ :=
  if unit then 1 else c.branch_length.getD 0

mutual

/-- Biopython `update_depths` inside `Tree.depths`: record the current
depth for this clade, then recurse with `curr + depth_of child`. -/
def update_depths (unit : Bool) : Clade → CPath → ℚ → HMap ℚ
  | .mk _ _ _ _ _ cs, p, curr => (p, curr) :: update_depths_children unit cs p 0 curr

def update_depths_children (unit : Bool) : List Clade → CPath → Nat → ℚ → HMap ℚ
  | [], _, _, _ => []
  | c :: cs, p, i, curr =>
    update_depths unit c (p ++ [i]) (curr + depth_of unit c) ++
      update_depths_children unit cs p (i + 1) curr

end

/-- Biopython `Tree.depths(unit_branch_lengths)`: the initial depth is
`self.root.branch_length or 0`. -/
def tree_depths (t : Clade) (unit : Bool) : HMap ℚ :=
  update_depths unit t [] (t.branch_length.getD 0)

/-- Python `max` over a list (the argument is never empty here: the
depths dict always contains the root). -/
def pyMax : List ℚ → ℚ
  | [] => 0
  | x :: xs => xs.foldl max x

/-- The values view of a dict. -/
def dictValues {α : Type} (h : HMap α) : List α := h.map Prod.snd

/-- `get_x_positions` of `trees.py`: cumulative branch-length depths,
falling back to unit branch lengths when `not max(depths.values())`. -/
def rect_get_x_positions (t : Clade) : HMap ℚ :=
  let depths := tree_depths t false
  if pyMax (dictValues depths) = 0 then tree_depths t true else depths

/-- Number of edges from the root to the clade at `p`
(`len(tree.get_path(terminal))` in Biopython). -/
def edgeDepth (p : CPath) : Nat := p.length

/-- The `treeDepth` loop of `circTrees.get_x_positions`:
start at `0`, replace by each terminal's path length when larger. -/
def treeDepthNat (t : Clade) : Nat :=
  (terminalPaths t []).foldl
    (fun acc q => if edgeDepth q > acc then edgeDepth q else acc) 0

/-- Whether the clade at path `p` of `t` is terminal. -/
def isTerminalAt (t : Clade) (p : CPath) : Bool :=
  match subclade t p with
  | some c => c.clades.isEmpty
  | none => false

/-- `get_x_positions` of `circTrees.py` with `cladogram=True` (the value
used by the script): unit-branch-length depths, then every terminal
clade's depth is overwritten with `treeDepth`. -/
def circ_get_x_positions (t : Clade) : HMap ℚ :=
  (tree_depths t true).map
    (fun e => if isTerminalAt t e.1 then (e.1, (treeDepthNat t : ℚ)) else e)

/-- The `cladogram=False` branch of `circTrees.get_x_positions` is
textually identical to `rect_get_x_positions`. -/
def circ_get_x_positions_noncladogram (t : Clade) : HMap ℚ :=
  rect_get_x_positions t

example :
    rect_get_y_positions
      (.mk none none none none none
        [.mk none none (some "A") none none [], .mk none none (some "B") none none []]) =
      [([], (3 : ℚ) / 2), ([1], 2), ([0], 1)] := by
  simp [rect_get_y_positions, get_y_positions_gen, tipHeights, tipEntries, terminalPaths,
    terminalPathsAux, count_terminals, calc_row, calc_children, hfind, dget, rectTipVal,
    Clade.clades]
  norm_num

example : rect_get_x_positions
      (.mk none none none none none
        [.mk (some 2) none (some "A") none none [], .mk (some 1) none (some "B") none none []]) =
      [([], 0), ([0], 2), ([1], 1)] := by
  simp [rect_get_x_positions, tree_depths, update_depths, update_depths_children, depth_of,
    pyMax, dictValues, Clade.branch_length]

example : circ_get_x_positions
      (.mk none none none none none
        [.mk none none none none none
          [.mk none none (some "A") none none [], .mk none none (some "B") none none []],
         .mk none none (some "C") none none []]) =
      [([], 0), ([0], 1), ([0, 0], 2), ([0, 1], 2), ([1], 2)] := by
  simp [circ_get_x_positions, tree_depths, update_depths, update_depths_children, depth_of,
    treeDepthNat, terminalPaths, terminalPathsAux, edgeDepth, isTerminalAt, subclade,
    Clade.clades, Clade.branch_length]

/-! ### Basic lemmas: paths, lookups, terminals -/

theorem hfind_append_of_not_key {α : Type} (q : CPath) (l h : HMap α)
    (hq : ∀ e ∈ l, e.1 ≠ q) : hfind q (l ++ h) = hfind q h := by
  induction l with
  | nil => rfl
  | cons e l ih =>
    have he : e.1 ≠ q := hq e (by simp)
    simp only [List.cons_append, hfind, if_neg he]
    exact ih (fun e' he' => hq e' (by simp [he']))

theorem hfind_append_of_found {α : Type} (q : CPath) (l h : HMap α) (v : α)
    (hv : hfind q l = some v) : hfind q (l ++ h) = some v := by
  induction l with
  | nil => simp [hfind] at hv
  | cons e l ih =>
    by_cases he : e.1 = q
    · simpa [hfind, he] using hv
    · simp only [hfind, if_neg he] at hv
      simpa [hfind, he] using ih hv

theorem subclade_mk_cons (bl cf : Option ℚ) (nm : Option String) (w : Option ℚ)
    (col : Option String) (cs : List Clade) (j : Nat) (r : CPath) :
    subclade (.mk bl cf nm w col cs) (j :: r) =
      match cs[j]? with
      | some cj => subclade cj r
      | none => none := rfl

theorem subclade_cons_of_getElem {c : Clade} {j : Nat} {cj : Clade}
    (hj : c.clades[j]? = some cj) (r : CPath) :
    subclade c (j :: r) = subclade cj r := by
  cases c with
  | mk bl cf nm w col cs => simp only [subclade, Clade.clades] at hj ⊢; rw [hj]

theorem subclade_leaf {c : Clade} (hc : c.clades = []) (j : Nat) (r : CPath) :
    subclade c (j :: r) = none := by
  cases c with
  | mk bl cf nm w col cs =>
    simp only [Clade.clades] at hc
    subst hc
    simp [subclade, Clade.clades]

theorem subclade_leaf_iff {c : Clade} (hc : c.clades = []) (r : CPath) (d : Clade) :
    subclade c r = some d ↔ r = [] ∧ d = c := by
  cases r with
  | nil => simp [subclade, eq_comm]
  | cons j r => simp [subclade_leaf hc]

theorem CPath.under_self (p : CPath) : CPath.under p p := ⟨[], by simp⟩

theorem CPath.under_append (p r : CPath) : CPath.under p (p ++ r) := ⟨r, rfl⟩

theorem CPath.under_of_under_append {p s q : CPath} (h : CPath.under (p ++ s) q) :
    CPath.under p q := by
  obtain ⟨r, hr⟩ := h
  exact ⟨s ++ r, by simp [hr]⟩

theorem CPath.not_under_sibling {p : CPath} {i j : Nat} (hij : i ≠ j) (r : CPath) :
    ¬ CPath.under (p ++ [i]) (p ++ [j] ++ r) := by
  rintro ⟨s, hs⟩
  rw [List.append_assoc p [j] r, List.append_assoc p [i] s] at hs
  have h2 : ([j] ++ r : CPath) = [i] ++ s := List.append_cancel_left hs
  simp only [List.singleton_append, List.cons.injEq] at h2
  exact hij h2.1.symm

theorem CPath.ne_of_longer {p : CPath} (j : Nat) (r : CPath) : p ++ [j] ++ r ≠ p := by
  intro h
  have hlen : (p ++ [j] ++ r).length = p.length := by rw [h]
  simp only [List.length_append, List.length_cons, List.length_nil] at hlen
  omega

mutual

theorem terminalPaths_sound : ∀ (c : Clade) (p q : CPath), q ∈ terminalPaths c p →
    ∃ r d, q = p ++ r ∧ subclade c r = some d ∧ d.clades = []
  | .mk bl cf nm w col [], p, q, hq => by
    simp only [terminalPaths, List.mem_singleton] at hq
    exact ⟨[], .mk bl cf nm w col [], by simp [hq], rfl, rfl⟩
  | .mk bl cf nm w col (c0 :: cs), p, q, hq => by
    have hq' : q ∈ terminalPathsAux (c0 :: cs) p 0 := by simpa [terminalPaths] using hq
    obtain ⟨j, cj, r, d, hj, hcj, hqe, hsub, hd⟩ := terminalPathsAux_sound (c0 :: cs) p 0 q hq'
    refine ⟨j :: r, d, ?_, ?_, hd⟩
    · simpa using hqe
    · rw [subclade_cons_of_getElem (by simpa [Clade.clades] using hcj) r]
      exact hsub

theorem terminalPathsAux_sound : ∀ (cs : List Clade) (p : CPath) (i : Nat) (q : CPath),
    q ∈ terminalPathsAux cs p i →
    ∃ j cj r d, j < cs.length ∧ cs[j]? = some cj ∧ q = p ++ [i + j] ++ r ∧
      subclade cj r = some d ∧ d.clades = []
  | [], p, i, q, hq => by simp [terminalPathsAux] at hq
  | c :: cs, p, i, q, hq => by
    simp only [terminalPathsAux, List.mem_append] at hq
    rcases hq with hq | hq
    · obtain ⟨r, d, hqe, hsub, hd⟩ := terminalPaths_sound c (p ++ [i]) q hq
      exact ⟨0, c, r, d, by simp, by simp, by simpa using hqe, hsub, hd⟩
    · obtain ⟨j, cj, r, d, hj, hcj, hqe, hsub, hd⟩ := terminalPathsAux_sound cs p (i + 1) q hq
      refine ⟨j + 1, cj, r, d, by simpa using Nat.succ_lt_succ hj, by simpa using hcj, ?_, hsub, hd⟩
      have harith : i + 1 + j = i + (j + 1) := by omega
      rwa [harith] at hqe

end

mutual

theorem terminalPaths_complete : ∀ (c : Clade) (p r : CPath) (d : Clade),
    subclade c r = some d → d.clades = [] → (p ++ r) ∈ terminalPaths c p
  | .mk bl cf nm w col [], p, r, d, hsub, hd => by
    obtain ⟨hr, hdc⟩ := (subclade_leaf_iff (by simp [Clade.clades]) r d).mp hsub
    subst hr
    simp [terminalPaths]
  | .mk bl cf nm w col (c0 :: cs), p, r, d, hsub, hd => by
    cases r with
    | nil =>
      simp only [subclade, Option.some.injEq] at hsub
      rw [← hsub] at hd
      simp [Clade.clades] at hd
    | cons j r' =>
      rw [subclade_mk_cons] at hsub
      cases hcj : (c0 :: cs)[j]? with
      | none => rw [hcj] at hsub; simp at hsub
      | some cj =>
        rw [hcj] at hsub
        have hmem := terminalPathsAux_complete (c0 :: cs) p 0 j cj r' d hcj hsub hd
        simp only [terminalPaths]
        have harith : (p ++ [0 + j] ++ r' : CPath) = p ++ j :: r' := by simp
        rwa [harith] at hmem

theorem terminalPathsAux_complete : ∀ (cs : List Clade) (p : CPath) (i j : Nat) (cj : Clade)
    (r : CPath) (d : Clade), cs[j]? = some cj → subclade cj r = some d → d.clades = [] →
    (p ++ [i + j] ++ r) ∈ terminalPathsAux cs p i
  | [], p, i, j, cj, r, d, hcj, _, _ => by simp at hcj
  | c :: cs, p, i, 0, cj, r, d, hcj, hsub, hd => by
    simp only [List.getElem?_cons_zero, Option.some.injEq] at hcj
    subst hcj
    simp only [terminalPathsAux, List.mem_append]
    left
    have := terminalPaths_complete c (p ++ [i]) r d hsub hd
    simpa using this
  | c :: cs, p, i, j + 1, cj, r, d, hcj, hsub, hd => by
    simp only [List.getElem?_cons_succ] at hcj
    simp only [terminalPathsAux, List.mem_append]
    right
    have := terminalPathsAux_complete cs p (i + 1) j cj r d hcj hsub hd
    have harith : i + 1 + j = i + (j + 1) := by omega
    rwa [harith] at this

end

mutual

theorem terminalPaths_nodup : ∀ (c : Clade) (p : CPath), (terminalPaths c p).Nodup
  | .mk _ _ _ _ _ [], p => by simp [terminalPaths]
  | .mk _ _ _ _ _ (c0 :: cs), p => by
    simpa [terminalPaths] using terminalPathsAux_nodup (c0 :: cs) p 0

theorem terminalPathsAux_nodup : ∀ (cs : List Clade) (p : CPath) (i : Nat),
    (terminalPathsAux cs p i).Nodup
  | [], p, i => by simp [terminalPathsAux]
  | c :: cs, p, i => by
    simp only [terminalPathsAux]
    refine List.Nodup.append (terminalPaths_nodup c (p ++ [i])) (terminalPathsAux_nodup cs p (i + 1)) ?_
    intro q hq1 hq2
    obtain ⟨r, d, hqe, _, _⟩ := terminalPaths_sound c (p ++ [i]) q hq1
    obtain ⟨j, cj, r', d', hj, hcj, hqe', _, _⟩ := terminalPathsAux_sound cs p (i + 1) q hq2
    have hne : i ≠ i + 1 + j := by omega
    apply CPath.not_under_sibling hne r' (p := p)
    rw [← hqe', hqe]
    exact CPath.under_append _ _

end

mutual

theorem terminalPaths_ne_nil : ∀ (c : Clade) (p : CPath), terminalPaths c p ≠ []
  | .mk _ _ _ _ _ [], p => by simp [terminalPaths]
  | .mk _ _ _ _ _ (c0 :: cs), p => by
    simpa [terminalPaths] using terminalPathsAux_ne_nil c0 cs p 0

theorem terminalPathsAux_ne_nil : ∀ (c : Clade) (cs : List Clade) (p : CPath) (i : Nat),
    terminalPathsAux (c :: cs) p i ≠ []
  | c, cs, p, i => by
    simp only [terminalPathsAux]
    intro h
    exact terminalPaths_ne_nil c (p ++ [i]) (List.append_eq_nil.mp h).1

end

theorem count_terminals_pos (t : Clade) : 0 < count_terminals t := by
  have := terminalPaths_ne_nil t []
  simp only [count_terminals]
  exact List.length_pos.mpr this

/-! ### Correctness of `calc_row` -/

/-- The clade at `q` holds the midpoint of its first and last child in
the dict `m` (all three lookups succeed). -/
def midpointAt {α : Type} [LinearOrderedField α] (m : HMap α) (q : CPath) (d : Clade) : Prop :=
  ∃ a b, hfind (q ++ [0]) m = some a ∧ hfind (q ++ [d.clades.length - 1]) m = some b ∧
    hfind q m = some ((a + b) / 2)

theorem midpointAt_mono {α : Type} [LinearOrderedField α] {m m' : HMap α} {q : CPath} {d : Clade}
    (h0 : hfind (q ++ [0]) m' = hfind (q ++ [0]) m)
    (h1 : hfind (q ++ [d.clades.length - 1]) m' = hfind (q ++ [d.clades.length - 1]) m)
    (h2 : hfind q m' = hfind q m) (hm : midpointAt m q d) : midpointAt m' q d := by
  obtain ⟨a, b, ha, hb, hq⟩ := hm
  exact ⟨a, b, by rw [h0, ha], by rw [h1, hb], by rw [h2, hq]⟩

theorem hfind_cons_ne {α : Type} (k q : CPath) (v : α) (m : HMap α) (hk : k ≠ q) :
    hfind q ((k, v) :: m) = hfind q m := by
  simp [hfind, hk]

theorem hfind_cons_longer {α : Type} (p : CPath) (j : Nat) (r : CPath) (v : α) (m : HMap α) :
    hfind (p ++ j :: r) ((p, v) :: m) = hfind (p ++ j :: r) m := by
  apply hfind_cons_ne
  intro hcontra
  exact CPath.ne_of_longer j r (p := p) (by simpa using hcontra.symm)

mutual

theorem calc_row_spec {α : Type} [LinearOrderedField α] :
    ∀ (c : Clade) (p : CPath) (h : HMap α),
    (∀ r d, subclade c r = some d → d.clades = [] → (hfind (p ++ r) h).isSome = true) →
    (∀ r d, subclade c r = some d → d.clades ≠ [] → hfind (p ++ r) h = none) →
    c.clades ≠ [] →
    (∀ r d, subclade c r = some d → d.clades = [] →
        hfind (p ++ r) (calc_row c p h) = hfind (p ++ r) h)
    ∧ (∀ r d, subclade c r = some d → d.clades ≠ [] →
        midpointAt (calc_row c p h) (p ++ r) d)
    ∧ (∀ q, ¬ CPath.under p q → hfind q (calc_row c p h) = hfind q h)
  | .mk bl cf nm w col cs, p, h, preA, preB, hcne => by
    simp only [Clade.clades] at hcne
    have preC : ∀ j cj, cs[j]? = some cj → ∀ r d, subclade cj r = some d →
        ((d.clades = [] → (hfind (p ++ [0 + j] ++ r) h).isSome = true)
          ∧ (d.clades ≠ [] → hfind (p ++ [0 + j] ++ r) h = none)) := by
      intro j cj hcj r d hsub
      have htr : (p ++ [0 + j] ++ r : CPath) = p ++ j :: r := by simp
      have hsub' : subclade (Clade.mk bl cf nm w col cs) (j :: r) = some d := by
        rw [subclade_cons_of_getElem (by simpa [Clade.clades] using hcj) r]
        exact hsub
      exact ⟨fun hd => by rw [htr]; exact preA (j :: r) d hsub' hd,
             fun hd => by rw [htr]; exact preB (j :: r) d hsub' hd⟩
    obtain ⟨post1, post2⟩ := calc_children_spec cs p 0 h preC
    have hsomeChild : ∀ j cj, cs[j]? = some cj →
        (hfind (p ++ [j]) (calc_children cs p 0 h)).isSome = true := by
      intro j cj hcj
      have h0j : (p ++ [0 + j] ++ ([] : CPath) : CPath) = p ++ [j] := by simp
      rcases hcs : cj.clades with _ | ⟨e, es⟩
      · have h1 := (post1 j cj hcj [] cj rfl).1 hcs
        rw [h0j] at h1
        rw [h1]
        have h2 := (preC j cj hcj [] cj rfl).1 hcs
        rwa [h0j] at h2
      · have hmid := (post1 j cj hcj [] cj rfl).2 (by simp [hcs])
        rw [h0j] at hmid
        obtain ⟨a, b, _, _, hq⟩ := hmid
        simp [hq]
    have hrow : calc_row (Clade.mk bl cf nm w col cs) p h =
        (p, (dget (hfind (p ++ [0]) (calc_children cs p 0 h)) +
             dget (hfind (p ++ [cs.length - 1]) (calc_children cs p 0 h))) / 2) ::
          calc_children cs p 0 h := rfl
    refine ⟨?_, ?_, ?_⟩
    · -- tips keep their value
      intro r d hsub hd
      cases r with
      | nil =>
        simp only [subclade, Option.some.injEq] at hsub
        rw [← hsub] at hd
        simp only [Clade.clades] at hd
        exact absurd hd hcne
      | cons j r' =>
        rw [subclade_mk_cons] at hsub
        cases hcj : cs[j]? with
        | none => rw [hcj] at hsub; simp at hsub
        | some cj =>
          rw [hcj] at hsub
          rw [hrow, hfind_cons_longer]
          have h1 := (post1 j cj hcj r' d hsub).1 hd
          have htr : (p ++ [0 + j] ++ r' : CPath) = p ++ j :: r' := by simp
          rwa [htr] at h1
    · -- internal clades hold midpoints
      intro r d hsub hd
      cases r with
      | nil =>
        simp only [subclade, Option.some.injEq] at hsub
        subst hsub
        simp only [List.append_nil]
        simp only [Clade.clades] at hd ⊢
        rcases cs with _ | ⟨c0, cs'⟩
        · exact absurd rfl hcne
        · have h0 : (c0 :: cs')[0]? = some c0 := by simp
          have hlastlt : (c0 :: cs').length - 1 < (c0 :: cs').length := by simp
          have hlast := List.getElem?_eq_getElem hlastlt
          have hs0 := hsomeChild 0 c0 h0
          have hs1 := hsomeChild ((c0 :: cs').length - 1) _ hlast
          obtain ⟨a, ha⟩ := Option.isSome_iff_exists.mp hs0
          obtain ⟨b, hb⟩ := Option.isSome_iff_exists.mp hs1
          refine ⟨a, b, ?_, ?_, ?_⟩
          · rw [hrow, hfind_cons_longer]
            exact ha
          · rw [hrow, hfind_cons_longer]
            exact hb
          · rw [hrow]
            have hb' : hfind (p ++ [cs'.length]) (calc_children (c0 :: cs') p 0 h) = some b := by
              have hlen : (c0 :: cs').length - 1 = cs'.length := by simp
              rwa [hlen] at hb
            simp [hfind, dget, ha, hb']
      | cons j r' =>
        rw [subclade_mk_cons] at hsub
        cases hcj : cs[j]? with
        | none => rw [hcj] at hsub; simp at hsub
        | some cj =>
          rw [hcj] at hsub
          have hmid := (post1 j cj hcj r' d hsub).2 hd
          have htr : (p ++ [0 + j] ++ r' : CPath) = p ++ j :: r' := by simp
          rw [htr] at hmid
          rw [hrow]
          refine midpointAt_mono ?_ ?_ ?_ hmid
          · apply hfind_cons_ne
            intro hcontra
            have hlen := congrArg List.length hcontra
            simp only [List.length_append, List.length_cons, List.length_nil] at hlen
            omega
          · apply hfind_cons_ne
            intro hcontra
            have hlen := congrArg List.length hcontra
            simp only [List.length_append, List.length_cons, List.length_nil] at hlen
            omega
          · apply hfind_cons_ne
            intro hcontra
            have hlen := congrArg List.length hcontra
            simp only [List.length_append, List.length_cons, List.length_nil] at hlen
            omega
    · -- untouched keys
      intro q hq
      rw [hrow, hfind_cons_ne _ _ _ _ (fun hpq => hq (by rw [← hpq]; exact CPath.under_self p))]
      refine post2 q ?_
      intro j hj hu
      exact hq (CPath.under_of_under_append hu)

theorem calc_children_spec {α : Type} [LinearOrderedField α] :
    ∀ (cs : List Clade) (p : CPath) (i : Nat) (h : HMap α),
    (∀ j cj, cs[j]? = some cj → ∀ r d, subclade cj r = some d →
        ((d.clades = [] → (hfind (p ++ [i + j] ++ r) h).isSome = true)
          ∧ (d.clades ≠ [] → hfind (p ++ [i + j] ++ r) h = none))) →
    (∀ j cj, cs[j]? = some cj → ∀ r d, subclade cj r = some d →
        ((d.clades = [] → hfind (p ++ [i + j] ++ r) (calc_children cs p i h) =
            hfind (p ++ [i + j] ++ r) h)
          ∧ (d.clades ≠ [] → midpointAt (calc_children cs p i h) (p ++ [i + j] ++ r) d)))
    ∧ (∀ q, (∀ j, j < cs.length → ¬ CPath.under (p ++ [i + j]) q) →
        hfind q (calc_children cs p i h) = hfind q h)
  | [], p, i, h, _ => by
    refine ⟨?_, ?_⟩
    · intro j cj hcj
      simp at hcj
    · intro q _
      rfl
  | c :: cs, p, i, h, pre => by
    rcases hcs : c.clades with _ | ⟨e, es⟩
    · -- the child `c` is a tip: it is already in `heights` and is skipped
      have hsome : (hfind (p ++ [i]) h).isSome = true := by
        have h1 := (pre 0 c (by simp) [] c rfl).1 hcs
        simpa using h1
      have hcc : calc_children (c :: cs) p i h = calc_children cs p (i + 1) h := by
        show calc_children cs p (i + 1)
            (if (hfind (p ++ [i]) h).isSome = true then h else calc_row c (p ++ [i]) h) =
          calc_children cs p (i + 1) h
        rw [if_pos hsome]
      have preRec : ∀ j cj, cs[j]? = some cj → ∀ r d, subclade cj r = some d →
          ((d.clades = [] → (hfind (p ++ [i + 1 + j] ++ r) h).isSome = true)
            ∧ (d.clades ≠ [] → hfind (p ++ [i + 1 + j] ++ r) h = none)) := by
        intro j cj hcj r d hsub
        have harith : i + 1 + j = i + (j + 1) := by omega
        rw [harith]
        exact pre (j + 1) cj (by simpa using hcj) r d hsub
      obtain ⟨ih1, ih2⟩ := calc_children_spec cs p (i + 1) h preRec
      refine ⟨?_, ?_⟩
      · intro j cj hcj r d hsub
        cases j with
        | zero =>
          simp only [List.getElem?_cons_zero, Option.some.injEq] at hcj
          subst hcj
          obtain ⟨hr, hdc⟩ := (subclade_leaf_iff hcs r d).mp hsub
          subst hr
          subst hdc
          refine ⟨?_, ?_⟩
          · intro _
            rw [hcc]
            refine ih2 _ ?_
            intro j' hj' hu
            simp only [Nat.add_zero, List.append_nil] at hu
            exact CPath.not_under_sibling (by omega : i + 1 + j' ≠ i) [] (p := p)
              (by simpa using hu)
          · intro hd
            exact absurd hcs hd
        | succ j' =>
          simp only [List.getElem?_cons_succ] at hcj
          have harith : i + (j' + 1) = i + 1 + j' := by omega
          have hres := ih1 j' cj hcj r d hsub
          rw [hcc, harith]
          exact hres
      · intro q hq
        rw [hcc]
        refine ih2 q ?_
        intro j' hj' hu
        have harith : i + 1 + j' = i + (j' + 1) := by omega
        rw [harith] at hu
        exact hq (j' + 1) (by simpa using Nat.succ_lt_succ hj') hu
    · -- the child `c` is internal: recurse into it
      have hcne : c.clades ≠ [] := by simp [hcs]
      have hnone : hfind (p ++ [i]) h = none := by
        have h1 := (pre 0 c (by simp) [] c rfl).2 hcne
        simpa using h1
      have hcc : calc_children (c :: cs) p i h =
          calc_children cs p (i + 1) (calc_row c (p ++ [i]) h) := by
        show calc_children cs p (i + 1)
            (if (hfind (p ++ [i]) h).isSome = true then h else calc_row c (p ++ [i]) h) =
          calc_children cs p (i + 1) (calc_row c (p ++ [i]) h)
        rw [if_neg (by simp [hnone])]
      have rowPreA : ∀ r d, subclade c r = some d → d.clades = [] →
          (hfind ((p ++ [i]) ++ r) h).isSome = true := by
        intro r d hsub hd
        have h1 := (pre 0 c (by simp) r d hsub).1 hd
        simpa using h1
      have rowPreB : ∀ r d, subclade c r = some d → d.clades ≠ [] →
          hfind ((p ++ [i]) ++ r) h = none := by
        intro r d hsub hd
        have h1 := (pre 0 c (by simp) r d hsub).2 hd
        simpa using h1
      obtain ⟨row1, row2, row3⟩ := calc_row_spec c (p ++ [i]) h rowPreA rowPreB hcne
      have preRec : ∀ j cj, cs[j]? = some cj → ∀ r d, subclade cj r = some d →
          ((d.clades = [] →
              (hfind (p ++ [i + 1 + j] ++ r) (calc_row c (p ++ [i]) h)).isSome = true)
            ∧ (d.clades ≠ [] → hfind (p ++ [i + 1 + j] ++ r) (calc_row c (p ++ [i]) h) = none)) := by
        intro j cj hcj r d hsub
        have hpres : hfind (p ++ [i + 1 + j] ++ r) (calc_row c (p ++ [i]) h) =
            hfind (p ++ [i + 1 + j] ++ r) h :=
          row3 _ (CPath.not_under_sibling (by omega : i ≠ i + 1 + j) r (p := p))
        rw [hpres]
        have harith : i + 1 + j = i + (j + 1) := by omega
        rw [harith]
        exact pre (j + 1) cj (by simpa using hcj) r d hsub
      obtain ⟨ih1, ih2⟩ := calc_children_spec cs p (i + 1) (calc_row c (p ++ [i]) h) preRec
      have presUnder : ∀ s : CPath, hfind ((p ++ [i]) ++ s)
          (calc_children cs p (i + 1) (calc_row c (p ++ [i]) h)) =
          hfind ((p ++ [i]) ++ s) (calc_row c (p ++ [i]) h) := by
        intro s
        refine ih2 _ ?_
        intro j' hj' hu
        exact CPath.not_under_sibling (by omega : i + 1 + j' ≠ i) s (p := p) hu
      refine ⟨?_, ?_⟩
      · intro j cj hcj r d hsub
        cases j with
        | zero =>
          simp only [List.getElem?_cons_zero, Option.some.injEq] at hcj
          subst hcj
          simp only [Nat.add_zero]
          refine ⟨?_, ?_⟩
          · intro hd
            rw [hcc, presUnder r, row1 r d hsub hd]
          · intro hd
            rw [hcc]
            refine midpointAt_mono ?_ ?_ ?_ (row2 r d hsub hd)
            · have hassoc : ((p ++ [i]) ++ r) ++ [0] = (p ++ [i]) ++ (r ++ [0]) := by
                simp [List.append_assoc]
              rw [hassoc]
              exact presUnder (r ++ [0])
            · have hassoc : ((p ++ [i]) ++ r) ++ [d.clades.length - 1] =
                  (p ++ [i]) ++ (r ++ [d.clades.length - 1]) := by
                simp [List.append_assoc]
              rw [hassoc]
              exact presUnder (r ++ [d.clades.length - 1])
            · exact presUnder r
        | succ j' =>
          simp only [List.getElem?_cons_succ] at hcj
          have harith : i + (j' + 1) = i + 1 + j' := by omega
          have hres := ih1 j' cj hcj r d hsub
          rw [hcc, harith]
          refine ⟨?_, hres.2⟩
          intro hd
          rw [hres.1 hd]
          exact row3 _ (CPath.not_under_sibling (by omega : i ≠ i + 1 + j') r (p := p))
      · intro q hq
        rw [hcc]
        have h1 : hfind q (calc_children cs p (i + 1) (calc_row c (p ++ [i]) h)) =
            hfind q (calc_row c (p ++ [i]) h) := by
          refine ih2 q ?_
          intro j' hj' hu
          have harith : i + 1 + j' = i + (j' + 1) := by omega
          rw [harith] at hu
          exact hq (j' + 1) (by simpa using Nat.succ_lt_succ hj') hu
        have h2 : hfind q (calc_row c (p ++ [i]) h) = hfind q h := by
          refine row3 q ?_
          intro hu
          exact hq 0 (by simp) (by simpa using hu)
        rw [h1, h2]

end

theorem hfind_append_of_none {α : Type} (q : CPath) (l h : HMap α)
    (hl : hfind q l = none) : hfind q (l ++ h) = hfind q h := by
  induction l with
  | nil => rfl
  | cons e l ih =>
    by_cases he : e.1 = q
    · simp [hfind, he] at hl
    · simp only [hfind, if_neg he] at hl
      simpa [hfind, he] using ih hl

theorem subclade_append : ∀ (c : Clade) (p q : CPath),
    subclade c (p ++ q) = (subclade c p).bind (fun d => subclade d q)
  | c, [], q => rfl
  | c, i :: p, q => by
    cases c with
    | mk bl cf nm w col cs =>
      show subclade (Clade.mk bl cf nm w col cs) (i :: (p ++ q)) = _
      rw [subclade_mk_cons, subclade_mk_cons]
      cases cs[i]? with
      | none => rfl
      | some ci => exact subclade_append ci p q

theorem subclade_snoc {t : Clade} {p : CPath} {j : Nat} {cj : Clade}
    (h : subclade t (p ++ [j]) = some cj) :
    ∃ dp, subclade t p = some dp ∧ dp.clades[j]? = some cj := by
  rw [subclade_append] at h
  cases hp : subclade t p with
  | none => rw [hp] at h; simp at h
  | some dp =>
    rw [hp] at h
    simp only [Option.some_bind] at h
    refine ⟨dp, rfl, ?_⟩
    cases dp with
    | mk bl cf nm w col cs =>
      rw [subclade_mk_cons] at h
      cases hc : cs[j]? with
      | none => rw [hc] at h; simp at h
      | some ci =>
        rw [hc] at h
        simp only [subclade, Option.some.injEq] at h
        simpa [Clade.clades, hc] using congrArg some h

/-! ### Tip entries -/

theorem hfind_tipEntries_isSome {α : Type} (f : Nat → α) :
    ∀ (l : List CPath) (i : Nat) (q : CPath), q ∈ l →
      (hfind q (tipEntries f i l)).isSome = true
  | [], _, _, hq => by simp at hq
  | x :: l, i, q, hq => by
    by_cases hx : x = q
    · simp [tipEntries, hfind, hx]
    · have hq' : q ∈ l := by
        rcases List.mem_cons.mp hq with h | h
        · exact absurd h.symm hx
        · exact h
      simpa [tipEntries, hfind, hx] using hfind_tipEntries_isSome f l (i + 1) q hq'

theorem hfind_tipEntries_of_not_mem {α : Type} (f : Nat → α) :
    ∀ (l : List CPath) (i : Nat) (q : CPath), q ∉ l → hfind q (tipEntries f i l) = none
  | [], _, _, _ => rfl
  | x :: l, i, q, hq => by
    have hx : x ≠ q := fun h => hq (by simp [h])
    have hq' : q ∉ l := fun h => hq (by simp [h])
    simpa [tipEntries, hfind, hx] using hfind_tipEntries_of_not_mem f l (i + 1) q hq'

theorem hfind_tipEntries_get {α : Type} (f : Nat → α) :
    ∀ (l : List CPath) (i j : Nat) (hj : j < l.length), l.Nodup →
      hfind (l.get ⟨j, hj⟩) (tipEntries f i l) = some (f (i + j))
  | [], i, j, hj, _ => by simp at hj
  | x :: l, i, 0, hj, _ => by simp [tipEntries, hfind]
  | x :: l, i, j + 1, hj, hnd => by
    have hjl : j < l.length := by simpa using hj
    have hmem : l.get ⟨j, hjl⟩ ∈ l := List.get_mem l j hjl
    have hx : x ≠ l.get ⟨j, hjl⟩ := by
      intro hcontra
      have hnotin := (List.nodup_cons.mp hnd).1
      rw [hcontra] at hnotin
      exact hnotin hmem
    have ih := hfind_tipEntries_get f l (i + 1) j hjl (List.nodup_cons.mp hnd).2
    have harith : i + 1 + j = i + (j + 1) := by omega
    rw [harith] at ih
    have hget : (x :: l).get ⟨j + 1, hj⟩ = l.get ⟨j, hjl⟩ := rfl
    rw [hget]
    show (if x = l.get ⟨j, hjl⟩ then some (f i)
        else hfind (l.get ⟨j, hjl⟩) (tipEntries f (i + 1) l)) = some (f (i + (j + 1)))
    rw [if_neg hx]
    exact ih

theorem hfind_tipHeights_isSome {α : Type} (tv : Nat → α) (t : Clade) (q : CPath)
    (hq : q ∈ terminalPaths t []) : (hfind q (tipHeights tv t)).isSome = true :=
  hfind_tipEntries_isSome tv _ 0 q (by simpa using hq)

theorem hfind_tipHeights_of_not_term {α : Type} (tv : Nat → α) (t : Clade) (q : CPath)
    (hq : q ∉ terminalPaths t []) : hfind q (tipHeights tv t) = none :=
  hfind_tipEntries_of_not_mem tv _ 0 q (by simpa using hq)

theorem hfind_tipHeights_get {α : Type} (tv : Nat → α) (t : Clade) (j : Nat)
    (hj : j < (terminalPaths t []).length) :
    hfind ((terminalPaths t []).get ⟨j, hj⟩) (tipHeights tv t) =
      some (tv (count_terminals t - 1 - j)) := by
  have hlen : (terminalPaths t []).length = count_terminals t := rfl
  have hrl : count_terminals t - 1 - j < (terminalPaths t []).reverse.length := by
    rw [List.length_reverse, hlen]
    have hpos := count_terminals_pos t
    omega
  have hget : (terminalPaths t []).reverse.get ⟨count_terminals t - 1 - j, hrl⟩ =
      (terminalPaths t []).get ⟨j, hj⟩ := by
    rw [List.get_eq_getElem, List.get_eq_getElem, List.getElem_reverse]
    congr 1
    show (terminalPaths t []).length - 1 - (count_terminals t - 1 - j) = j
    omega
  have hmain := hfind_tipEntries_get tv (terminalPaths t []).reverse 0
    (count_terminals t - 1 - j) hrl (List.nodup_reverse.mpr (terminalPaths_nodup t []))
  rw [hget] at hmain
  simpa [tipHeights] using hmain

/-! ### Specification of `get_y_positions` -/

theorem get_y_spec {α : Type} [LinearOrderedField α] (tv : Nat → α) (t : Clade) :
    (∀ r d, subclade t r = some d → d.clades = [] →
        hfind r (get_y_positions_gen tv t) = hfind r (tipHeights tv t))
    ∧ (∀ r d, subclade t r = some d → d.clades ≠ [] →
        midpointAt (get_y_positions_gen tv t) r d) := by
  by_cases hroot : t.clades.isEmpty
  · have hempty : t.clades = [] := List.isEmpty_iff.mp hroot
    constructor
    · intro r d _ _
      simp [get_y_positions_gen, hroot]
    · intro r d hsub hd
      obtain ⟨hr, hdc⟩ := (subclade_leaf_iff hempty r d).mp hsub
      subst hdc
      exact absurd hempty hd
  · have hne : t.clades ≠ [] := fun h => hroot (by simp [h])
    have hgy : get_y_positions_gen tv t = calc_row t [] (tipHeights tv t) := by
      simp [get_y_positions_gen, hroot]
    have preA : ∀ r d, subclade t r = some d → d.clades = [] →
        (hfind (([] : CPath) ++ r) (tipHeights tv t)).isSome = true := by
      intro r d hsub hd
      have hmem : (([] : CPath) ++ r) ∈ terminalPaths t [] :=
        terminalPaths_complete t [] r d hsub hd
      exact hfind_tipHeights_isSome tv t _ hmem
    have preB : ∀ r d, subclade t r = some d → d.clades ≠ [] →
        hfind (([] : CPath) ++ r) (tipHeights tv t) = none := by
      intro r d hsub hd
      refine hfind_tipHeights_of_not_term tv t _ ?_
      intro hmem
      obtain ⟨r', d', hq, hsub', hd'⟩ := terminalPaths_sound t [] _ hmem
      simp only [List.nil_append] at hq
      subst hq
      rw [hsub'] at hsub
      simp only [Option.some.injEq] at hsub
      rw [hsub] at hd'
      exact hd hd'
    obtain ⟨s1, s2, _⟩ := calc_row_spec t [] (tipHeights tv t) preA preB hne
    constructor
    · intro r d hsub hd
      have := s1 r d hsub hd
      simpa [hgy] using this
    · intro r d hsub hd
      have := s2 r d hsub hd
      simpa [hgy] using this

/-! ### Specification of the depth maps -/

/-- Sum of the `depth_of` weights along the path `r` from `c`
(the increments accumulated by `update_depths`). -/
def pathWeight (unit : Bool) : Clade → CPath → ℚ
  | _, [] => 0
  | c, j :: r =>
    match c.clades[j]? with
    | some cj => depth_of unit cj + pathWeight unit cj r
    | none => 0

mutual

theorem update_depths_not_under : ∀ (unit : Bool) (c : Clade) (p : CPath) (curr : ℚ) (q : CPath),
    ¬ CPath.under p q → hfind q (update_depths unit c p curr) = none
  | unit, .mk bl cf nm w col cs, p, curr, q, hq => by
    show hfind q ((p, curr) :: update_depths_children unit cs p 0 curr) = none
    rw [hfind_cons_ne _ _ _ _ (fun hpq => hq (by rw [← hpq]; exact CPath.under_self p))]
    refine update_depths_children_not_under unit cs p 0 curr q ?_
    intro j hj hu
    exact hq (CPath.under_of_under_append hu)

theorem update_depths_children_not_under : ∀ (unit : Bool) (cs : List Clade) (p : CPath)
    (i : Nat) (curr : ℚ) (q : CPath),
    (∀ j, j < cs.length → ¬ CPath.under (p ++ [i + j]) q) →
    hfind q (update_depths_children unit cs p i curr) = none
  | _, [], _, _, _, _, _ => rfl
  | unit, c :: cs, p, i, curr, q, hq => by
    show hfind q (update_depths unit c (p ++ [i]) (curr + depth_of unit c) ++
        update_depths_children unit cs p (i + 1) curr) = none
    rw [hfind_append_of_none q _ _ (update_depths_not_under unit c (p ++ [i]) _ q
      (fun hu => hq 0 (by simp) (by simpa using hu)))]
    refine update_depths_children_not_under unit cs p (i + 1) curr q ?_
    intro j hj hu
    have harith : i + 1 + j = i + (j + 1) := by omega
    rw [harith] at hu
    exact hq (j + 1) (by simpa using Nat.succ_lt_succ hj) hu

end

mutual

theorem update_depths_spec : ∀ (unit : Bool) (c : Clade) (p : CPath) (curr : ℚ)
    (r : CPath) (d : Clade), subclade c r = some d →
    hfind (p ++ r) (update_depths unit c p curr) = some (curr + pathWeight unit c r)
  | unit, .mk bl cf nm w col cs, p, curr, [], d, _ => by
    show hfind (p ++ []) ((p, curr) :: update_depths_children unit cs p 0 curr) = _
    simp only [List.append_nil]
    show (if p = p then some curr else hfind p (update_depths_children unit cs p 0 curr)) = _
    rw [if_pos rfl]
    simp [pathWeight]
  | unit, .mk bl cf nm w col cs, p, curr, j :: r, d, hsub => by
    rw [subclade_mk_cons] at hsub
    cases hcj : cs[j]? with
    | none => rw [hcj] at hsub; simp at hsub
    | some cj =>
      rw [hcj] at hsub
      show hfind (p ++ j :: r) ((p, curr) :: update_depths_children unit cs p 0 curr) = _
      rw [hfind_cons_longer]
      have hmain := update_depths_children_spec unit cs p 0 curr j cj hcj r d hsub
      have htr : (p ++ [0 + j] ++ r : CPath) = p ++ j :: r := by simp
      rw [htr] at hmain
      rw [hmain]
      congr 1
      have hpw : pathWeight unit (Clade.mk bl cf nm w col cs) (j :: r) =
          depth_of unit cj + pathWeight unit cj r := by
        simp [pathWeight, Clade.clades, hcj]
      rw [hpw]
      ring

theorem update_depths_children_spec : ∀ (unit : Bool) (cs : List Clade) (p : CPath) (i : Nat)
    (curr : ℚ) (j : Nat) (cj : Clade), cs[j]? = some cj →
    ∀ (r : CPath) (d : Clade), subclade cj r = some d →
    hfind (p ++ [i + j] ++ r) (update_depths_children unit cs p i curr) =
      some (curr + depth_of unit cj + pathWeight unit cj r)
  | unit, [], p, i, curr, j, cj, hcj, r, d, hsub => by simp at hcj
  | unit, c :: cs, p, i, curr, 0, cj, hcj, r, d, hsub => by
    simp only [List.getElem?_cons_zero, Option.some.injEq] at hcj
    subst hcj
    show hfind (p ++ [i + 0] ++ r) (update_depths unit c (p ++ [i]) (curr + depth_of unit c) ++
        update_depths_children unit cs p (i + 1) curr) = _
    have h0 : (p ++ [i + 0] ++ r : CPath) = (p ++ [i]) ++ r := by simp
    rw [h0]
    exact hfind_append_of_found _ _ _ _
      (update_depths_spec unit c (p ++ [i]) (curr + depth_of unit c) r d hsub)
  | unit, c :: cs, p, i, curr, j + 1, cj, hcj, r, d, hsub => by
    simp only [List.getElem?_cons_succ] at hcj
    show hfind (p ++ [i + (j + 1)] ++ r) (update_depths unit c (p ++ [i]) (curr + depth_of unit c) ++
        update_depths_children unit cs p (i + 1) curr) = _
    rw [hfind_append_of_none _ _ _ (update_depths_not_under unit c (p ++ [i]) _ _
      (CPath.not_under_sibling (show i ≠ i + (j + 1) by omega) r))]
    have harith : i + (j + 1) = i + 1 + j := by omega
    rw [harith]
    exact update_depths_children_spec unit cs p (i + 1) curr j cj hcj r d hsub

end

theorem tree_depths_spec (t : Clade) (unit : Bool) (r : CPath) (d : Clade)
    (hsub : subclade t r = some d) :
    hfind r (tree_depths t unit) = some (t.branch_length.getD 0 + pathWeight unit t r) := by
  have h1 := update_depths_spec unit t [] (t.branch_length.getD 0) r d hsub
  simpa [tree_depths] using h1

theorem pathWeight_unit : ∀ (c : Clade) (r : CPath) (d : Clade), subclade c r = some d →
    pathWeight true c r = (r.length : ℚ)
  | _, [], _, _ => by simp [pathWeight]
  | c, j :: r, d, hsub => by
    cases c with
    | mk bl cf nm w col cs =>
      rw [subclade_mk_cons] at hsub
      cases hcj : cs[j]? with
      | none => rw [hcj] at hsub; simp at hsub
      | some cj =>
        rw [hcj] at hsub
        have ih := pathWeight_unit cj r d hsub
        simp only [pathWeight, Clade.clades, hcj, ih, depth_of, if_pos, List.length_cons]
        push_cast
        ring

theorem pathWeight_snoc (unit : Bool) : ∀ (c : Clade) (r : CPath) (j : Nat) (d cj : Clade),
    subclade c r = some d → d.clades[j]? = some cj →
    pathWeight unit c (r ++ [j]) = pathWeight unit c r + depth_of unit cj
  | c, [], j, d, cj, hsub, hcj => by
    simp only [subclade, Option.some.injEq] at hsub
    subst hsub
    simp [pathWeight, hcj]
  | c, jj :: r, j, d, cj, hsub, hcj => by
    cases c with
    | mk bl cf nm w col cs =>
      rw [subclade_mk_cons] at hsub
      cases hcjj : cs[jj]? with
      | none => rw [hcjj] at hsub; simp at hsub
      | some cjj =>
        rw [hcjj] at hsub
        have ih := pathWeight_snoc unit cjj r j d cj hsub hcj
        show pathWeight unit (Clade.mk bl cf nm w col cs) (jj :: (r ++ [j])) = _
        simp only [pathWeight, Clade.clades, hcjj, ih]
        ring

/-! ### `pyMax` and the tree depth bound -/

theorem le_foldl_max_init : ∀ (l : List ℚ) (a : ℚ), a ≤ l.foldl max a
  | [], a => le_refl a
  | x :: l, a => le_trans (le_max_left a x) (le_foldl_max_init l (max a x))

theorem le_foldl_max_of_mem : ∀ (l : List ℚ) (a x : ℚ), x ∈ l → x ≤ l.foldl max a
  | [], _, _, hx => by simp at hx
  | y :: l, a, x, hx => by
    rcases List.mem_cons.mp hx with h | h
    · subst h
      exact le_trans (le_max_right a x) (le_foldl_max_init l (max a x))
    · exact le_foldl_max_of_mem l (max a y) x h

theorem le_pyMax_of_mem (l : List ℚ) (x : ℚ) (hx : x ∈ l) : x ≤ pyMax l := by
  cases l with
  | nil => simp at hx
  | cons y ys =>
    rcases List.mem_cons.mp hx with h | h
    · subst h
      exact le_foldl_max_init ys x
    · exact le_foldl_max_of_mem ys y x h

theorem hfind_mem_dictValues {α : Type} : ∀ (m : HMap α) (q : CPath) (v : α),
    hfind q m = some v → v ∈ dictValues m
  | [], q, v, h => by simp [hfind] at h
  | e :: m, q, v, h => by
    by_cases he : e.1 = q
    · simp only [hfind, if_pos he, Option.some.injEq] at h
      simp [dictValues, h]
    · simp only [hfind, if_neg he] at h
      simp only [dictValues, List.map_cons, List.mem_cons]
      exact Or.inr (hfind_mem_dictValues m q v h)

theorem hfind_circ_x (t : Clade) (q : CPath) :
    hfind q (circ_get_x_positions t) =
      (hfind q (tree_depths t true)).map
        (fun v => if isTerminalAt t q then (treeDepthNat t : ℚ) else v) := by
  unfold circ_get_x_positions
  generalize tree_depths t true = m
  induction m with
  | nil => rfl
  | cons e m ih =>
    by_cases he : e.1 = q
    · subst he
      by_cases ht : isTerminalAt t e.1
      · simp [hfind, ht]
      · simp [hfind, ht]
    · by_cases ht : isTerminalAt t e.1
      · simpa [hfind, ht, he] using ih
      · simpa [hfind, ht, he] using ih

theorem le_foldl_depth_init : ∀ (l : List CPath) (a : Nat),
    a ≤ l.foldl (fun acc q => if edgeDepth q > acc then edgeDepth q else acc) a
  | [], a => le_refl a
  | x :: l, a => by
    refine le_trans ?_ (le_foldl_depth_init l _)
    show a ≤ if edgeDepth x > a then edgeDepth x else a
    by_cases h : edgeDepth x > a
    · rw [if_pos h]; omega
    · rw [if_neg h]

theorem le_foldl_depth_of_mem : ∀ (l : List CPath) (a : Nat) (q : CPath), q ∈ l →
    edgeDepth q ≤ l.foldl (fun acc q => if edgeDepth q > acc then edgeDepth q else acc) a
  | [], _, _, hq => by simp at hq
  | x :: l, a, q, hq => by
    rcases List.mem_cons.mp hq with h | h
    · subst h
      refine le_trans ?_ (le_foldl_depth_init l _)
      show edgeDepth q ≤ if edgeDepth q > a then edgeDepth q else a
      by_cases hgt : edgeDepth q > a
      · rw [if_pos hgt]
      · rw [if_neg hgt]; omega
    · exact le_foldl_depth_of_mem l _ q h

theorem leafDepth_le_treeDepth (t : Clade) (q : CPath) (hq : q ∈ terminalPaths t []) :
    q.length ≤ treeDepthNat t :=
  le_foldl_depth_of_mem (terminalPaths t []) 0 q hq

/-! ### Drawing (`drawMark` / `draw_clade`) -/

/-- Python `conf2str` inside `drawMark`: drop the decimal part when the
confidence is integral. -/
def conf2str (conf : ℚ) : String :=
  if conf.den = 1 then toString conf.num else toString conf

/-- The `format_branch_label` chosen by `drawMark` when `branch_labels`
is left `None` (as `drawTree` always does): the clade's confidence,
formatted, when `show_confidence` is set.  (Newick clades have no
`confidences` attribute, so the phyloXML branch of the source is not
reachable.) -/
def format_branch_label (show_confidence : Bool) (c : Clade) : Option String :=
  if show_confidence then c.confidence.map conf2str else none

/-- The `get_label_color` closure of `drawMark`: a caller-supplied
colouring function (the dict form `label_colors.get(label, 'black')` is
such a function of the label), defaulting to black when `label_colors`
is not supplied. -/
def get_label_color (label_colors : Option (String → String)) (l : String) : String :=
  match label_colors with
  | some f => f l
  | none => "black"

/-- The parameters of `drawMark` that `draw_clade` consults.
`rcLineWidth` is `plt.rcParams['lines.linewidth']` (set by `drawTree`
via `plt.rc('lines', lw=lineWidth)`). -/
structure DrawParams where
  label_func : Clade → Option String
  mark : List String
  markColor : String
  markWeight : String
  label_colors : Option (String → String)
  show_confidence : Bool
  rcLineWidth : ℚ

/-- Rectangular drawing commands, tagged with the path of the clade
whose `draw_clade` call emitted them. -/
inductive RectCmd : Type where
  | hline (p : CPath) (y x_start x_here : ℚ) (color : String) (lw : ℚ)
  | vline (p : CPath) (x y_bot y_top : ℚ) (color : String) (lw : ℚ)
  | label (p : CPath) (x y : ℚ) (s : String) (color : String) (fontweight : Option String)
  | confLabel (p : CPath) (x y : ℚ) (s : String)

/-- The taxon-label commands of the rectangular `draw_clade` (trees.py
lines 143-153): skip a `None` label and the class name `'Clade'`; a
label in `mark` is drawn with `markColor`/`markWeight`, any other with
`get_label_color`.  The drawn text is `' %s' % label`. -/
def rect_label_cmds (P : DrawParams) (c : Clade) (p : CPath) (x_here y_here : ℚ) :
    List RectCmd :=
  match P.label_func c with
  | none => []
  | some l =>
    if l = "Clade" then []
    else if l ∈ P.mark then
      [RectCmd.label p x_here y_here (" " ++ l) P.markColor (some P.markWeight)]
    else
      [RectCmd.label p x_here y_here (" " ++ l) (get_label_color P.label_colors l) none]

/-- The branch-label command (`if conf_label:` is Python truthiness:
neither `None` nor the empty string). -/
def rect_conf_cmds (P : DrawParams) (c : Clade) (p : CPath) (x_start x_here y_here : ℚ) :
    List RectCmd :=
  match format_branch_label P.show_confidence c with
  | none => []
  | some s => if s = "" then [] else [RectCmd.confLabel p (0.5 * (x_start + x_here)) y_here s]

/-- Colour applied at a single clade by `draw_clade`: an own colour
(the source's `clade.color.to_hex()`) overrides the inherited one. -/
def nodeColor (c : Clade) (color : String) : String :=
  match c.color with
  | some col => col
  | none => color

/-- Line width applied at a single clade by `draw_clade`: an own width
is scaled by `plt.rcParams['lines.linewidth']`. -/
def nodeLw (c : Clade) (rcLineWidth lw0 : ℚ) : ℚ :=
  match c.width with
  | some w => w * rcLineWidth
  | none => lw0

/-- Line width applied at a single clade in the polar script. -/
noncomputable def nodeLwR (c : Clade) (rcLineWidth lw0 : ℝ) : ℝ :=
  match c.width with
  | some w => (w : ℝ) * rcLineWidth
  | none => lw0

mutual

/-- `draw_clade` of trees.py as a trace of drawing commands, in source
order: horizontal line, taxon label, branch label, vertical line
connecting the children, then the children recursively.  Returns `none`
where a dict lookup would raise `KeyError` (claim C9 shows that cannot
happen for the maps `drawMark` builds). -/
def rect_draw_clade (P : DrawParams) (xm ym : HMap ℚ) :
    Clade → CPath → ℚ → String → ℚ → Option (List RectCmd)
  | c@(.mk _ _ _ _ _ cs), p, x_start, color0, lw0 =>
    match hfind p xm, hfind p ym with
    | some x_here, some y_here =>
      let color := nodeColor c color0
      let lw := nodeLw c P.rcLineWidth lw0
      let horiz : List RectCmd := [RectCmd.hline p y_here x_start x_here color lw]
      let labels := rect_label_cmds P c p x_here y_here
      let confs := rect_conf_cmds P c p x_start x_here y_here
      match cs with
      | [] => some (horiz ++ labels ++ confs)
      | _ :: _ =>
        match hfind (p ++ [0]) ym, hfind (p ++ [cs.length - 1]) ym with
        | some y_top, some y_bot =>
          match rect_draw_children P xm ym cs p 0 x_here color lw with
          | some rest =>
            some (horiz ++ labels ++ confs ++
              [RectCmd.vline p x_here y_bot y_top color lw] ++ rest)
          | none => none
        | _, _ => none
    | _, _ => none

def rect_draw_children (P : DrawParams) (xm ym : HMap ℚ) :
    List Clade → CPath → Nat → ℚ → String → ℚ → Option (List RectCmd)
  | [], _, _, _, _, _ => some []
  | c :: cs, p, i, x_here, color, lw =>
    match rect_draw_clade P xm ym c (p ++ [i]) x_here color lw with
    | some l1 =>
      match rect_draw_children P xm ym cs p (i + 1) x_here color lw with
      | some l2 => some (l1 ++ l2)
      | none => none
    | none => none

end

/-- The drawing pass of trees.py `drawMark`:
`draw_clade(tree.root, 0, 'k', plt.rcParams['lines.linewidth'])` against
the maps built by `get_x_positions` and `get_y_positions`. -/
def rect_drawMark_draw (P : DrawParams) (t : Clade) : Option (List RectCmd) :=
  rect_draw_clade P (rect_get_x_positions t) (rect_get_y_positions t) t [] 0 "k" P.rcLineWidth

/-- Polar drawing commands (the polar `draw_clade_lines` draws rays and
arcs via `axes.plot`), tagged with the emitting clade's path.  The
`taxonLabel` constructor mirrors the taxon-label block of circTrees.py
lines 160-173, which is disabled (quoted out) in the source; it exists
so that its absence from every trace is a statable fact. -/
inductive CircCmd : Type where
  | ray (p : CPath) (theta r_start r_here : ℝ) (color : String) (lw : ℝ)
  | arc (p : CPath) (theta_bot theta_top r : ℝ) (color : String) (lw : ℝ) (resolution : Nat)
  | confLabel (p : CPath) (x y : ℝ) (s : String)
  | taxonLabel (p : CPath) (theta r : ℝ) (s : String) (color : String) (fontweight : Option String)

/-- The horizontal branch of the polar `draw_clade_lines`: a radial
segment, nudged slightly when the angle is exactly `np.pi / 2`. -/
noncomputable def circ_hline (p : CPath) (y_here x_start x_here : ℝ) (color : String)
    (lw : ℝ) : CircCmd :=
  if y_here = Real.pi / 2 then
    CircCmd.ray p (y_here + 0.00018) (x_start + 0.012) (x_here + 0.012) color lw
  else
    CircCmd.ray p y_here x_start x_here color lw

/-- The branch-label command of the polar `draw_clade`. -/
def circ_conf_cmds (P : DrawParams) (c : Clade) (p : CPath) (x_start x_here y_here : ℝ) :
    List CircCmd :=
  match format_branch_label P.show_confidence c with
  | none => []
  | some s => if s = "" then [] else [CircCmd.confLabel p (0.5 * (x_start + x_here)) y_here s]

mutual

/-- `draw_clade` of circTrees.py: identical control flow to the
rectangular one, except that lines are drawn as rays/arcs and the
taxon-label block is disabled in the source, so no `taxonLabel` command
is ever emitted. -/
noncomputable def circ_draw_clade (P : DrawParams) (xm ym : HMap ℝ) :
    Clade → CPath → ℝ → String → ℝ → Option (List CircCmd)
  | c@(.mk _ _ _ _ _ cs), p, x_start, color0, lw0 =>
    match hfind p xm, hfind p ym with
    | some x_here, some y_here =>
      let color := nodeColor c color0
      let lw := nodeLwR c (P.rcLineWidth : ℝ) lw0
      let horiz : List CircCmd := [circ_hline p y_here x_start x_here color lw]
      let confs := circ_conf_cmds P c p x_start x_here y_here
      match cs with
      | [] => some (horiz ++ confs)
      | _ :: _ =>
        match hfind (p ++ [0]) ym, hfind (p ++ [cs.length - 1]) ym with
        | some y_top, some y_bot =>
          match circ_draw_children P xm ym cs p 0 x_here color lw with
          | some rest =>
            some (horiz ++ confs ++
              [CircCmd.arc p y_bot y_top x_here color lw 100] ++ rest)
          | none => none
        | _, _ => none
    | _, _ => none

noncomputable def circ_draw_children (P : DrawParams) (xm ym : HMap ℝ) :
    List Clade → CPath → Nat → ℝ → String → ℝ → Option (List CircCmd)
  | [], _, _, _, _, _ => some []
  | c :: cs, p, i, x_here, color, lw =>
    match circ_draw_clade P xm ym c (p ++ [i]) x_here color lw with
    | some l1 =>
      match circ_draw_children P xm ym cs p (i + 1) x_here color lw with
      | some l2 => some (l1 ++ l2)
      | none => none
    | none => none

end

/-- Coordinate map coerced into the reals (the polar axes consume the
same numbers as radii). -/
def hmapToReal (m : HMap ℚ) : HMap ℝ := m.map (fun e => (e.1, (e.2 : ℝ)))

/-- The drawing pass of circTrees.py `drawMark`. -/
noncomputable def circ_drawMark_draw (P : DrawParams) (t : Clade) : Option (List CircCmd) :=
  circ_draw_clade P (hmapToReal (circ_get_x_positions t)) (circ_get_y_positions t) t []
    0 "k" (P.rcLineWidth : ℝ)

/-! ### Extractors over command traces -/

/-- First hit of a partial query over a trace. -/
def firstHit {γ β : Type} (f : γ → Option β) : List γ → Option β
  | [] => none
  | x :: rest =>
    match f x with
    | some b => some b
    | none => firstHit f rest

theorem firstHit_append {γ β : Type} (f : γ → Option β) (l1 l2 : List γ) :
    firstHit f (l1 ++ l2) =
      match firstHit f l1 with
      | some b => some b
      | none => firstHit f l2 := by
  induction l1 with
  | nil => rfl
  | cons x l1 ih =>
    show (match f x with
      | some b => some b
      | none => firstHit f (l1 ++ l2)) =
      match (match f x with | some b => some b | none => firstHit f l1) with
      | some b => some b
      | none => firstHit f l2
    cases f x with
    | some b => rfl
    | none => exact ih

/-- The taxon label (text, colour, fontweight) drawn for the clade at `p`. -/
def findLabelCmd (cmds : List RectCmd) (p : CPath) : Option (String × String × Option String) :=
  firstHit (fun cmd =>
    match cmd with
    | RectCmd.label q _ _ s col fw => if q = p then some (s, col, fw) else none
    | _ => none) cmds

/-- The colour of the horizontal (branch) line drawn for the clade at `p`. -/
def findHlineColor (cmds : List RectCmd) (p : CPath) : Option String :=
  firstHit (fun cmd =>
    match cmd with
    | RectCmd.hline q _ _ _ col _ => if q = p then some col else none
    | _ => none) cmds

/-- The colour of the radial (branch) line drawn for the clade at `p` in
the polar trace. -/
def findRayColor (cmds : List CircCmd) (p : CPath) : Option String :=
  firstHit (fun cmd =>
    match cmd with
    | CircCmd.ray q _ _ _ col _ => if q = p then some col else none
    | _ => none) cmds

/-- Number of taxon-label commands in a polar trace. -/
def countTaxonLabels (cmds : List CircCmd) : Nat :=
  (cmds.filter (fun cmd =>
    match cmd with
    | CircCmd.taxonLabel .. => true
    | _ => false)).length

/-! ### Effective colours -/

/-- The colour `draw_clade` uses for the clade reached by `r` when the
subtree rooted at `c` is drawn with inherited colour `color`: the
inherited colour, overridden at every clade along the way (itself
included) that carries its own colour. -/
def effColor : Clade → String → CPath → String
  | c, color, [] => nodeColor c color
  | c, color, j :: r =>
    match c.clades[j]? with
    | some cj => effColor cj (nodeColor c color) r
    | none => nodeColor c color

/-- The taxon label the rectangular `draw_clade` emits for a clade. -/
def expectedLabel (P : DrawParams) (c : Clade) : Option (String × String × Option String) :=
  match P.label_func c with
  | none => none
  | some l =>
    if l = "Clade" then none
    else if l ∈ P.mark then some (" " ++ l, P.markColor, some P.markWeight)
    else some (" " ++ l, get_label_color P.label_colors l, none)

/-! ### Totality of the coordinate lookups (claim C9 backbone) -/

theorem rect_x_isSome (t : Clade) (r : CPath) (d : Clade) (hsub : subclade t r = some d) :
    (hfind r (rect_get_x_positions t)).isSome = true := by
  by_cases hmax : pyMax (dictValues (tree_depths t false)) = 0
  · simp only [rect_get_x_positions, if_pos hmax]
    rw [tree_depths_spec t true r d hsub]
    rfl
  · simp only [rect_get_x_positions, if_neg hmax]
    rw [tree_depths_spec t false r d hsub]
    rfl

theorem circ_x_isSome (t : Clade) (r : CPath) (d : Clade) (hsub : subclade t r = some d) :
    (hfind r (circ_get_x_positions t)).isSome = true := by
  rw [hfind_circ_x, tree_depths_spec t true r d hsub]
  rfl

theorem gen_y_isSome {α : Type} [LinearOrderedField α] (tv : Nat → α) (t : Clade) (r : CPath)
    (d : Clade) (hsub : subclade t r = some d) :
    (hfind r (get_y_positions_gen tv t)).isSome = true := by
  obtain ⟨s1, s2⟩ := get_y_spec tv t
  rcases hcs : d.clades with _ | ⟨e, es⟩
  · rw [s1 r d hsub hcs]
    have hmem : (([] : CPath) ++ r) ∈ terminalPaths t [] :=
      terminalPaths_complete t [] r d hsub hcs
    rw [List.nil_append] at hmem
    exact hfind_tipHeights_isSome tv t r hmem
  · obtain ⟨a, b, _, _, hq⟩ := s2 r d hsub (by simp [hcs])
    simp [hq]

theorem hfind_hmapToReal (m : HMap ℚ) (q : CPath) :
    hfind q (hmapToReal m) = (hfind q m).map (fun v => (v : ℝ)) := by
  induction m with
  | nil => rfl
  | cons e m ih =>
    by_cases he : e.1 = q
    · simp [hmapToReal, hfind, he]
    · simpa [hmapToReal, hfind, he] using ih

mutual

theorem rect_draw_total (P : DrawParams) (xm ym : HMap ℚ) :
    ∀ (c : Clade) (p : CPath) (x0 : ℚ) (col0 : String) (lw0 : ℚ),
    (∀ r d, subclade c r = some d →
      (hfind (p ++ r) xm).isSome = true ∧ (hfind (p ++ r) ym).isSome = true) →
    (rect_draw_clade P xm ym c p x0 col0 lw0).isSome = true
  | .mk bl cf nm w col cs, p, x0, col0, lw0, hpre => by
    obtain ⟨hx, hy⟩ := hpre [] _ rfl
    rw [List.append_nil] at hx hy
    obtain ⟨x_here, hx⟩ := Option.isSome_iff_exists.mp hx
    obtain ⟨y_here, hy⟩ := Option.isSome_iff_exists.mp hy
    cases cs with
    | nil => simp [rect_draw_clade, hx, hy]
    | cons c0 cs' =>
      have hsub0 : subclade (Clade.mk bl cf nm w col (c0 :: cs')) (0 :: ([] : CPath)) = some c0 :=
        subclade_cons_of_getElem (by simp [Clade.clades]) []
      have hlastlt : (c0 :: cs').length - 1 < (c0 :: cs').length := by simp
      have hlast := List.getElem?_eq_getElem hlastlt
      have hsubl : subclade (Clade.mk bl cf nm w col (c0 :: cs'))
          (((c0 :: cs').length - 1) :: ([] : CPath)) =
          some ((c0 :: cs').get ⟨(c0 :: cs').length - 1, hlastlt⟩) :=
        subclade_cons_of_getElem (by simpa [Clade.clades] using hlast) []
      have hy0 := (hpre (0 :: []) _ hsub0).2
      have hyl := (hpre (((c0 :: cs').length - 1) :: []) _ hsubl).2
      obtain ⟨y_top, hy0⟩ := Option.isSome_iff_exists.mp hy0
      obtain ⟨y_bot, hyl⟩ := Option.isSome_iff_exists.mp hyl
      have hkids : (rect_draw_children P xm ym (c0 :: cs') p 0 x_here
          (nodeColor (Clade.mk bl cf nm w col (c0 :: cs')) col0)
          (nodeLw (Clade.mk bl cf nm w col (c0 :: cs')) P.rcLineWidth lw0)).isSome = true := by
        refine rect_draw_children_total P xm ym (c0 :: cs') p 0 x_here _ _ ?_
        intro j cj hcj r d hsub
        have htr : (p ++ [0 + j] ++ r : CPath) = p ++ j :: r := by simp
        rw [htr]
        exact hpre (j :: r) d
          (by rw [subclade_cons_of_getElem (by simpa [Clade.clades] using hcj) r]; exact hsub)
      obtain ⟨rest, hrest⟩ := Option.isSome_iff_exists.mp hkids
      have h0e : (p ++ 0 :: ([] : CPath) : CPath) = p ++ [0] := rfl
      have hle : (p ++ ((c0 :: cs').length - 1) :: ([] : CPath) : CPath) =
          p ++ [(c0 :: cs').length - 1] := rfl
      rw [h0e] at hy0
      rw [hle] at hyl
      have hyl2 : hfind (p ++ [cs'.length]) ym = some y_bot := by
        have hlen : (c0 :: cs').length - 1 = cs'.length := by simp
        rwa [hlen] at hyl
      simp [rect_draw_clade, hx, hy, hy0, hyl2, hrest]

theorem rect_draw_children_total (P : DrawParams) (xm ym : HMap ℚ) :
    ∀ (cs : List Clade) (p : CPath) (i : Nat) (x0 : ℚ) (col0 : String) (lw0 : ℚ),
    (∀ j cj, cs[j]? = some cj → ∀ r d, subclade cj r = some d →
      (hfind (p ++ [i + j] ++ r) xm).isSome = true ∧
        (hfind (p ++ [i + j] ++ r) ym).isSome = true) →
    (rect_draw_children P xm ym cs p i x0 col0 lw0).isSome = true
  | [], _, _, _, _, _, _ => rfl
  | c :: cs, p, i, x0, col0, lw0, hpre => by
    have hc : (rect_draw_clade P xm ym c (p ++ [i]) x0 col0 lw0).isSome = true := by
      refine rect_draw_total P xm ym c (p ++ [i]) x0 col0 lw0 ?_
      intro r d hsub
      have h1 := hpre 0 c (by simp) r d hsub
      simpa using h1
    have hcs : (rect_draw_children P xm ym cs p (i + 1) x0 col0 lw0).isSome = true := by
      refine rect_draw_children_total P xm ym cs p (i + 1) x0 col0 lw0 ?_
      intro j cj hcj r d hsub
      have harith : i + 1 + j = i + (j + 1) := by omega
      rw [harith]
      exact hpre (j + 1) cj (by simpa using hcj) r d hsub
    obtain ⟨l1, hl1⟩ := Option.isSome_iff_exists.mp hc
    obtain ⟨l2, hl2⟩ := Option.isSome_iff_exists.mp hcs
    simp [rect_draw_children, hl1, hl2]

end

mutual

theorem circ_draw_total (P : DrawParams) (xm ym : HMap ℝ) :
    ∀ (c : Clade) (p : CPath) (x0 : ℝ) (col0 : String) (lw0 : ℝ),
    (∀ r d, subclade c r = some d →
      (hfind (p ++ r) xm).isSome = true ∧ (hfind (p ++ r) ym).isSome = true) →
    (circ_draw_clade P xm ym c p x0 col0 lw0).isSome = true
  | .mk bl cf nm w col cs, p, x0, col0, lw0, hpre => by
    obtain ⟨hx, hy⟩ := hpre [] _ rfl
    rw [List.append_nil] at hx hy
    obtain ⟨x_here, hx⟩ := Option.isSome_iff_exists.mp hx
    obtain ⟨y_here, hy⟩ := Option.isSome_iff_exists.mp hy
    cases cs with
    | nil => simp [circ_draw_clade, hx, hy]
    | cons c0 cs' =>
      have hsub0 : subclade (Clade.mk bl cf nm w col (c0 :: cs')) (0 :: ([] : CPath)) = some c0 :=
        subclade_cons_of_getElem (by simp [Clade.clades]) []
      have hlastlt : (c0 :: cs').length - 1 < (c0 :: cs').length := by simp
      have hlast := List.getElem?_eq_getElem hlastlt
      have hsubl : subclade (Clade.mk bl cf nm w col (c0 :: cs'))
          (((c0 :: cs').length - 1) :: ([] : CPath)) =
          some ((c0 :: cs').get ⟨(c0 :: cs').length - 1, hlastlt⟩) :=
        subclade_cons_of_getElem (by simpa [Clade.clades] using hlast) []
      have hy0 := (hpre (0 :: []) _ hsub0).2
      have hyl := (hpre (((c0 :: cs').length - 1) :: []) _ hsubl).2
      obtain ⟨y_top, hy0⟩ := Option.isSome_iff_exists.mp hy0
      obtain ⟨y_bot, hyl⟩ := Option.isSome_iff_exists.mp hyl
      have hkids : (circ_draw_children P xm ym (c0 :: cs') p 0 x_here
          (nodeColor (Clade.mk bl cf nm w col (c0 :: cs')) col0)
          (nodeLwR (Clade.mk bl cf nm w col (c0 :: cs')) (P.rcLineWidth : ℝ) lw0)).isSome = true := by
        refine circ_draw_children_total P xm ym (c0 :: cs') p 0 x_here _ _ ?_
        intro j cj hcj r d hsub
        have htr : (p ++ [0 + j] ++ r : CPath) = p ++ j :: r := by simp
        rw [htr]
        exact hpre (j :: r) d
          (by rw [subclade_cons_of_getElem (by simpa [Clade.clades] using hcj) r]; exact hsub)
      obtain ⟨rest, hrest⟩ := Option.isSome_iff_exists.mp hkids
      have h0e : (p ++ 0 :: ([] : CPath) : CPath) = p ++ [0] := rfl
      have hle : (p ++ ((c0 :: cs').length - 1) :: ([] : CPath) : CPath) =
          p ++ [(c0 :: cs').length - 1] := rfl
      rw [h0e] at hy0
      rw [hle] at hyl
      have hyl2 : hfind (p ++ [cs'.length]) ym = some y_bot := by
        have hlen : (c0 :: cs').length - 1 = cs'.length := by simp
        rwa [hlen] at hyl
      simp [circ_draw_clade, hx, hy, hy0, hyl2, hrest]

theorem circ_draw_children_total (P : DrawParams) (xm ym : HMap ℝ) :
    ∀ (cs : List Clade) (p : CPath) (i : Nat) (x0 : ℝ) (col0 : String) (lw0 : ℝ),
    (∀ j cj, cs[j]? = some cj → ∀ r d, subclade cj r = some d →
      (hfind (p ++ [i + j] ++ r) xm).isSome = true ∧
        (hfind (p ++ [i + j] ++ r) ym).isSome = true) →
    (circ_draw_children P xm ym cs p i x0 col0 lw0).isSome = true
  | [], _, _, _, _, _, _ => rfl
  | c :: cs, p, i, x0, col0, lw0, hpre => by
    have hc : (circ_draw_clade P xm ym c (p ++ [i]) x0 col0 lw0).isSome = true := by
      refine circ_draw_total P xm ym c (p ++ [i]) x0 col0 lw0 ?_
      intro r d hsub
      have h1 := hpre 0 c (by simp) r d hsub
      simpa using h1
    have hcs : (circ_draw_children P xm ym cs p (i + 1) x0 col0 lw0).isSome = true := by
      refine circ_draw_children_total P xm ym cs p (i + 1) x0 col0 lw0 ?_
      intro j cj hcj r d hsub
      have harith : i + 1 + j = i + (j + 1) := by omega
      rw [harith]
      exact hpre (j + 1) cj (by simpa using hcj) r d hsub
    obtain ⟨l1, hl1⟩ := Option.isSome_iff_exists.mp hc
    obtain ⟨l2, hl2⟩ := Option.isSome_iff_exists.mp hcs
    simp [circ_draw_children, hl1, hl2]

end

theorem rect_drawMark_total (P : DrawParams) (t : Clade) :
    (rect_drawMark_draw P t).isSome = true := by
  refine rect_draw_total P _ _ t [] 0 "k" P.rcLineWidth ?_
  intro r d hsub
  rw [List.nil_append]
  exact ⟨rect_x_isSome t r d hsub, gen_y_isSome _ t r d hsub⟩

theorem circ_drawMark_total (P : DrawParams) (t : Clade) :
    (circ_drawMark_draw P t).isSome = true := by
  refine circ_draw_total P _ _ t [] 0 "k" (P.rcLineWidth : ℝ) ?_
  intro r d hsub
  rw [List.nil_append]
  constructor
  · rw [hfind_hmapToReal]
    have := circ_x_isSome t r d hsub
    obtain ⟨v, hv⟩ := Option.isSome_iff_exists.mp this
    simp [hv]
  · exact gen_y_isSome _ t r d hsub

/-! ### Extractor lemmas -/

theorem firstHit_append_none {γ β : Type} (f : γ → Option β) (l1 l2 : List γ)
    (h : firstHit f l1 = none) : firstHit f (l1 ++ l2) = firstHit f l2 := by
  induction l1 with
  | nil => rfl
  | cons x l1 ih =>
    simp only [firstHit] at h ⊢
    cases hx : f x with
    | some b => rw [hx] at h; simp at h
    | none =>
      rw [hx] at h
      simp only [List.cons_append, firstHit, hx]
      exact ih h

theorem firstHit_append_some {γ β : Type} (f : γ → Option β) (l1 l2 : List γ) (b : β)
    (h : firstHit f l1 = some b) : firstHit f (l1 ++ l2) = some b := by
  induction l1 with
  | nil => simp [firstHit] at h
  | cons x l1 ih =>
    simp only [firstHit] at h ⊢
    cases hx : f x with
    | some b2 =>
      rw [hx] at h
      simp only [List.cons_append, firstHit, hx]
      exact h
    | none =>
      rw [hx] at h
      simp only [List.cons_append, firstHit, hx]
      exact ih h

theorem findLabelCmd_append_none (l1 l2 : List RectCmd) (q : CPath)
    (h : findLabelCmd l1 q = none) : findLabelCmd (l1 ++ l2) q = findLabelCmd l2 q := by
  unfold findLabelCmd at h ⊢
  exact firstHit_append_none _ l1 l2 h

theorem findLabelCmd_append_some (l1 l2 : List RectCmd) (q : CPath)
    (b : String × String × Option String) (h : findLabelCmd l1 q = some b) :
    findLabelCmd (l1 ++ l2) q = some b := by
  unfold findLabelCmd at h ⊢
  exact firstHit_append_some _ l1 l2 b h

theorem findHlineColor_append_none (l1 l2 : List RectCmd) (q : CPath)
    (h : findHlineColor l1 q = none) : findHlineColor (l1 ++ l2) q = findHlineColor l2 q := by
  unfold findHlineColor at h ⊢
  exact firstHit_append_none _ l1 l2 h

theorem findHlineColor_append_some (l1 l2 : List RectCmd) (q : CPath) (b : String)
    (h : findHlineColor l1 q = some b) : findHlineColor (l1 ++ l2) q = some b := by
  unfold findHlineColor at h ⊢
  exact firstHit_append_some _ l1 l2 b h

theorem findRayColor_append_none (l1 l2 : List CircCmd) (q : CPath)
    (h : findRayColor l1 q = none) : findRayColor (l1 ++ l2) q = findRayColor l2 q := by
  unfold findRayColor at h ⊢
  exact firstHit_append_none _ l1 l2 h

theorem findRayColor_append_some (l1 l2 : List CircCmd) (q : CPath) (b : String)
    (h : findRayColor l1 q = some b) : findRayColor (l1 ++ l2) q = some b := by
  unfold findRayColor at h ⊢
  exact firstHit_append_some _ l1 l2 b h

theorem findLabelCmd_label_cons (q' : CPath) (x y : ℚ) (s colr : String) (fw : Option String)
    (rest : List RectCmd) (q : CPath) :
    findLabelCmd (RectCmd.label q' x y s colr fw :: rest) q =
      if q' = q then some (s, colr, fw) else findLabelCmd rest q := by
  by_cases h : q' = q <;> simp [findLabelCmd, firstHit, h]

theorem findHlineColor_hline_cons (q' : CPath) (y xs xh : ℚ) (colr : String) (lw : ℚ)
    (rest : List RectCmd) (q : CPath) :
    findHlineColor (RectCmd.hline q' y xs xh colr lw :: rest) q =
      if q' = q then some colr else findHlineColor rest q := by
  by_cases h : q' = q <;> simp [findHlineColor, firstHit, h]

theorem findLabelCmd_label_cmds_self (P : DrawParams) (c : Clade) (p : CPath) (x y : ℚ) :
    findLabelCmd (rect_label_cmds P c p x y) p = expectedLabel P c := by
  unfold rect_label_cmds expectedLabel
  cases P.label_func c with
  | none => rfl
  | some l =>
    by_cases h1 : l = "Clade"
    · simp [h1, findLabelCmd, firstHit]
    · by_cases h2 : l ∈ P.mark <;> simp [h1, h2, findLabelCmd_label_cons]

theorem findLabelCmd_label_cmds_ne (P : DrawParams) (c : Clade) (p : CPath) (x y : ℚ)
    (q : CPath) (hq : p ≠ q) : findLabelCmd (rect_label_cmds P c p x y) q = none := by
  unfold rect_label_cmds
  cases P.label_func c with
  | none => rfl
  | some l =>
    by_cases h1 : l = "Clade"
    · simp [h1, findLabelCmd, firstHit]
    · by_cases h2 : l ∈ P.mark <;>
        simp [h1, h2, findLabelCmd_label_cons, hq, findLabelCmd, firstHit]

theorem findLabelCmd_conf_cmds (P : DrawParams) (c : Clade) (p : CPath) (xs xh y : ℚ)
    (q : CPath) : findLabelCmd (rect_conf_cmds P c p xs xh y) q = none := by
  unfold rect_conf_cmds
  cases format_branch_label P.show_confidence c with
  | none => rfl
  | some s => by_cases h : s = "" <;> simp [h, findLabelCmd, firstHit]

theorem findHlineColor_label_cmds (P : DrawParams) (c : Clade) (p : CPath) (x y : ℚ)
    (q : CPath) : findHlineColor (rect_label_cmds P c p x y) q = none := by
  unfold rect_label_cmds
  cases P.label_func c with
  | none => rfl
  | some l =>
    by_cases h1 : l = "Clade"
    · simp [h1, findHlineColor, firstHit]
    · by_cases h2 : l ∈ P.mark <;> simp [h1, h2, findHlineColor, firstHit]

theorem findHlineColor_conf_cmds (P : DrawParams) (c : Clade) (p : CPath) (xs xh y : ℚ)
    (q : CPath) : findHlineColor (rect_conf_cmds P c p xs xh y) q = none := by
  unfold rect_conf_cmds
  cases format_branch_label P.show_confidence c with
  | none => rfl
  | some s => by_cases h : s = "" <;> simp [h, findHlineColor, firstHit]

theorem findRayColor_circ_hline_cons (q' : CPath) (y xs xh : ℝ) (colr : String) (lw : ℝ)
    (rest : List CircCmd) (q : CPath) :
    findRayColor (circ_hline q' y xs xh colr lw :: rest) q =
      if q' = q then some colr else findRayColor rest q := by
  unfold circ_hline
  by_cases hpi : y = Real.pi / 2 <;> by_cases h : q' = q <;>
    simp [hpi, h, findRayColor, firstHit]

theorem findRayColor_conf_cmds (P : DrawParams) (c : Clade) (p : CPath) (xs xh y : ℝ)
    (q : CPath) : findRayColor (circ_conf_cmds P c p xs xh y) q = none := by
  unfold circ_conf_cmds
  cases format_branch_label P.show_confidence c with
  | none => rfl
  | some s => by_cases h : s = "" <;> simp [h, findRayColor, firstHit]

theorem countTaxonLabels_append (l1 l2 : List CircCmd) :
    countTaxonLabels (l1 ++ l2) = countTaxonLabels l1 + countTaxonLabels l2 := by
  simp [countTaxonLabels]

theorem countTaxonLabels_circ_hline (p : CPath) (y xs xh : ℝ) (colr : String) (lw : ℝ) :
    countTaxonLabels [circ_hline p y xs xh colr lw] = 0 := by
  unfold circ_hline
  by_cases hpi : y = Real.pi / 2 <;> simp [hpi, countTaxonLabels]

theorem countTaxonLabels_conf_cmds (P : DrawParams) (c : Clade) (p : CPath) (xs xh y : ℝ) :
    countTaxonLabels (circ_conf_cmds P c p xs xh y) = 0 := by
  unfold circ_conf_cmds
  cases format_branch_label P.show_confidence c with
  | none => rfl
  | some s => by_cases h : s = "" <;> simp [h, countTaxonLabels]

theorem findLabelCmd_hline_cons (q' : CPath) (y xs xh : ℚ) (colr : String) (lw : ℚ)
    (rest : List RectCmd) (q : CPath) :
    findLabelCmd (RectCmd.hline q' y xs xh colr lw :: rest) q = findLabelCmd rest q := rfl

theorem findLabelCmd_vline_cons (q' : CPath) (x yb yt : ℚ) (colr : String) (lw : ℚ)
    (rest : List RectCmd) (q : CPath) :
    findLabelCmd (RectCmd.vline q' x yb yt colr lw :: rest) q = findLabelCmd rest q := rfl

theorem findHlineColor_vline_cons (q' : CPath) (x yb yt : ℚ) (colr : String) (lw : ℚ)
    (rest : List RectCmd) (q : CPath) :
    findHlineColor (RectCmd.vline q' x yb yt colr lw :: rest) q = findHlineColor rest q := rfl

theorem CPath.not_under_extend (p : CPath) (j : Nat) : ¬ CPath.under (p ++ [j]) p := by
  rintro ⟨s, hs⟩
  exact CPath.ne_of_longer j s (p := p) (by simpa using hs.symm)

theorem CPath.ne_cons_extend (p : CPath) (j : Nat) (r : CPath) : p ≠ p ++ j :: r := by
  intro h
  exact CPath.ne_of_longer j r (p := p) (by simpa using h.symm)

mutual

theorem rect_draw_spec (P : DrawParams) (xm ym : HMap ℚ) :
    ∀ (c : Clade) (p : CPath) (x0 : ℚ) (col0 : String) (lw0 : ℚ) (cmds : List RectCmd),
    rect_draw_clade P xm ym c p x0 col0 lw0 = some cmds →
    (∀ q, ¬ CPath.under p q → findLabelCmd cmds q = none ∧ findHlineColor cmds q = none)
    ∧ (∀ r d, subclade c r = some d →
        findHlineColor cmds (p ++ r) = some (effColor c col0 r)
        ∧ findLabelCmd cmds (p ++ r) = expectedLabel P d)
  | .mk bl cf nm w col cs, p, x0, col0, lw0, cmds, hdraw => by
    cases hxm : hfind p xm with
    | none => rw [rect_draw_clade, hxm] at hdraw; simp at hdraw
    | some x_here =>
    cases hym : hfind p ym with
    | none => rw [rect_draw_clade, hxm, hym] at hdraw; simp at hdraw
    | some y_here =>
    cases cs with
    | nil =>
      rw [rect_draw_clade, hxm, hym] at hdraw
      simp only [Option.some.injEq] at hdraw
      subst hdraw
      set c := Clade.mk bl cf nm w col ([] : List Clade) with hc
      refine ⟨?_, ?_⟩
      · intro q hq
        have hpq : p ≠ q := fun h => hq (by rw [← h]; exact CPath.under_self p)
        constructor
        · rw [show ([RectCmd.hline p y_here x0 x_here (nodeColor c col0) (nodeLw c P.rcLineWidth lw0)] ++
              rect_label_cmds P c p x_here y_here ++ rect_conf_cmds P c p x0 x_here y_here : List RectCmd) =
              RectCmd.hline p y_here x0 x_here (nodeColor c col0) (nodeLw c P.rcLineWidth lw0) ::
                (rect_label_cmds P c p x_here y_here ++ rect_conf_cmds P c p x0 x_here y_here) by simp]
          rw [findLabelCmd_hline_cons,
            findLabelCmd_append_none _ _ _ (findLabelCmd_label_cmds_ne P c p x_here y_here q hpq)]
          exact findLabelCmd_conf_cmds P c p x0 x_here y_here q
        · rw [show ([RectCmd.hline p y_here x0 x_here (nodeColor c col0) (nodeLw c P.rcLineWidth lw0)] ++
              rect_label_cmds P c p x_here y_here ++ rect_conf_cmds P c p x0 x_here y_here : List RectCmd) =
              RectCmd.hline p y_here x0 x_here (nodeColor c col0) (nodeLw c P.rcLineWidth lw0) ::
                (rect_label_cmds P c p x_here y_here ++ rect_conf_cmds P c p x0 x_here y_here) by simp]
          rw [findHlineColor_hline_cons, if_neg hpq,
            findHlineColor_append_none _ _ _ (findHlineColor_label_cmds P c p x_here y_here q)]
          exact findHlineColor_conf_cmds P c p x0 x_here y_here q
      · intro r d hsub
        obtain ⟨hr, hdc⟩ := (subclade_leaf_iff (by rw [hc]; rfl) r d).mp hsub
        subst hr
        subst hdc
        rw [List.append_nil]
        constructor
        · rw [show ([RectCmd.hline p y_here x0 x_here (nodeColor c col0) (nodeLw c P.rcLineWidth lw0)] ++
              rect_label_cmds P c p x_here y_here ++ rect_conf_cmds P c p x0 x_here y_here : List RectCmd) =
              RectCmd.hline p y_here x0 x_here (nodeColor c col0) (nodeLw c P.rcLineWidth lw0) ::
                (rect_label_cmds P c p x_here y_here ++ rect_conf_cmds P c p x0 x_here y_here) by simp]
          rw [findHlineColor_hline_cons, if_pos rfl]
          rfl
        · rw [show ([RectCmd.hline p y_here x0 x_here (nodeColor c col0) (nodeLw c P.rcLineWidth lw0)] ++
              rect_label_cmds P c p x_here y_here ++ rect_conf_cmds P c p x0 x_here y_here : List RectCmd) =
              RectCmd.hline p y_here x0 x_here (nodeColor c col0) (nodeLw c P.rcLineWidth lw0) ::
                (rect_label_cmds P c p x_here y_here ++ rect_conf_cmds P c p x0 x_here y_here) by simp]
          rw [findLabelCmd_hline_cons]
          have hself := findLabelCmd_label_cmds_self P c p x_here y_here
          cases hexp : expectedLabel P c with
          | some b =>
            rw [hexp] at hself
            rw [findLabelCmd_append_some _ _ _ _ hself]
          | none =>
            rw [hexp] at hself
            rw [findLabelCmd_append_none _ _ _ hself]
            exact findLabelCmd_conf_cmds P c p x0 x_here y_here p
    | cons c0 cs' =>
      rw [rect_draw_clade, hxm, hym] at hdraw
      dsimp only at hdraw
      cases hy0 : hfind (p ++ [0]) ym with
      | none => rw [hy0] at hdraw; simp at hdraw
      | some y_top =>
      cases hyl : hfind (p ++ [(c0 :: cs').length - 1]) ym with
      | none => rw [hy0, hyl] at hdraw; simp at hdraw
      | some y_bot =>
      cases hkids : rect_draw_children P xm ym (c0 :: cs') p 0 x_here
          (nodeColor (Clade.mk bl cf nm w col (c0 :: cs')) col0)
          (nodeLw (Clade.mk bl cf nm w col (c0 :: cs')) P.rcLineWidth lw0) with
      | none => rw [hy0, hyl, hkids] at hdraw; simp at hdraw
      | some rest =>
      rw [hy0, hyl, hkids] at hdraw
      simp only [Option.some.injEq] at hdraw
      subst hdraw
      set c := Clade.mk bl cf nm w col (c0 :: cs') with hc
      obtain ⟨ihA, ihB⟩ := rect_draw_children_spec P xm ym (c0 :: cs') p 0 x_here
        (nodeColor c col0) (nodeLw c P.rcLineWidth lw0) rest hkids
      have hshape : ([RectCmd.hline p y_here x0 x_here (nodeColor c col0) (nodeLw c P.rcLineWidth lw0)] ++
          rect_label_cmds P c p x_here y_here ++ rect_conf_cmds P c p x0 x_here y_here ++
          [RectCmd.vline p x_here y_bot y_top (nodeColor c col0) (nodeLw c P.rcLineWidth lw0)] ++ rest :
            List RectCmd) =
          RectCmd.hline p y_here x0 x_here (nodeColor c col0) (nodeLw c P.rcLineWidth lw0) ::
            (rect_label_cmds P c p x_here y_here ++ (rect_conf_cmds P c p x0 x_here y_here ++
              (RectCmd.vline p x_here y_bot y_top (nodeColor c col0) (nodeLw c P.rcLineWidth lw0) ::
                rest))) := by simp
      rw [hshape]
      refine ⟨?_, ?_⟩
      · intro q hq
        have hpq : p ≠ q := fun h => hq (by rw [← h]; exact CPath.under_self p)
        have hrest := ihA q (fun j hj hu => hq (CPath.under_of_under_append hu))
        constructor
        · rw [findLabelCmd_hline_cons,
            findLabelCmd_append_none _ _ _ (findLabelCmd_label_cmds_ne P c p x_here y_here q hpq),
            findLabelCmd_append_none _ _ _ (findLabelCmd_conf_cmds P c p x0 x_here y_here q),
            findLabelCmd_vline_cons]
          exact hrest.1
        · rw [findHlineColor_hline_cons, if_neg hpq,
            findHlineColor_append_none _ _ _ (findHlineColor_label_cmds P c p x_here y_here q),
            findHlineColor_append_none _ _ _ (findHlineColor_conf_cmds P c p x0 x_here y_here q),
            findHlineColor_vline_cons]
          exact hrest.2
      · intro r d hsub
        cases r with
        | nil =>
          rw [List.append_nil]
          have hdc : d = c := by
            have : subclade c [] = some c := rfl
            rw [this] at hsub
            simpa using hsub.symm
          subst hdc
          have hnotunder : ∀ j, j < (c0 :: cs').length → ¬ CPath.under (p ++ [0 + j]) p :=
            fun j _ => CPath.not_under_extend p (0 + j)
          have hrest := ihA p hnotunder
          constructor
          · rw [findHlineColor_hline_cons, if_pos rfl]
            rfl
          · rw [findLabelCmd_hline_cons]
            have hself := findLabelCmd_label_cmds_self P c p x_here y_here
            cases hexp : expectedLabel P c with
            | some b =>
              rw [hexp] at hself
              rw [findLabelCmd_append_some _ _ _ _ hself]
            | none =>
              rw [hexp] at hself
              rw [findLabelCmd_append_none _ _ _ hself,
                findLabelCmd_append_none _ _ _ (findLabelCmd_conf_cmds P c p x0 x_here y_here p),
                findLabelCmd_vline_cons]
              exact hrest.1
        | cons j r' =>
          have hsub' := hsub
          rw [show subclade c (j :: r') = _ from rfl] at hsub'
          rw [subclade_mk_cons] at hsub'
          cases hcj : (c0 :: cs')[j]? with
          | none => rw [hcj] at hsub'; simp at hsub'
          | some cj =>
          rw [hcj] at hsub'
          have hne : p ≠ p ++ j :: r' := CPath.ne_cons_extend p j r'
          have hchild := ihB j cj hcj r' d hsub'
          have htr : (p ++ [0 + j] ++ r' : CPath) = p ++ j :: r' := by simp
          rw [htr] at hchild
          have heff : effColor c col0 (j :: r') = effColor cj (nodeColor c col0) r' := by
            show effColor (Clade.mk bl cf nm w col (c0 :: cs')) col0 (j :: r') = _
            simp only [effColor, Clade.clades, hcj]
          constructor
          · rw [findHlineColor_hline_cons, if_neg hne,
              findHlineColor_append_none _ _ _ (findHlineColor_label_cmds P c p x_here y_here _),
              findHlineColor_append_none _ _ _ (findHlineColor_conf_cmds P c p x0 x_here y_here _),
              findHlineColor_vline_cons, hchild.1, heff]
          · rw [findLabelCmd_hline_cons,
              findLabelCmd_append_none _ _ _ (findLabelCmd_label_cmds_ne P c p x_here y_here _ hne),
              findLabelCmd_append_none _ _ _ (findLabelCmd_conf_cmds P c p x0 x_here y_here _),
              findLabelCmd_vline_cons]
            exact hchild.2

theorem rect_draw_children_spec (P : DrawParams) (xm ym : HMap ℚ) :
    ∀ (cs : List Clade) (p : CPath) (i : Nat) (x0 : ℚ) (col0 : String) (lw0 : ℚ)
      (cmds : List RectCmd),
    rect_draw_children P xm ym cs p i x0 col0 lw0 = some cmds →
    (∀ q, (∀ j, j < cs.length → ¬ CPath.under (p ++ [i + j]) q) →
        findLabelCmd cmds q = none ∧ findHlineColor cmds q = none)
    ∧ (∀ j cj, cs[j]? = some cj → ∀ r d, subclade cj r = some d →
        findHlineColor cmds (p ++ [i + j] ++ r) = some (effColor cj col0 r)
        ∧ findLabelCmd cmds (p ++ [i + j] ++ r) = expectedLabel P d)
  | [], p, i, x0, col0, lw0, cmds, hdraw => by
    simp only [rect_draw_children, Option.some.injEq] at hdraw
    subst hdraw
    refine ⟨fun q _ => ⟨rfl, rfl⟩, ?_⟩
    intro j cj hcj
    simp at hcj
  | c :: cs, p, i, x0, col0, lw0, cmds, hdraw => by
    rw [rect_draw_children] at hdraw
    cases hc1 : rect_draw_clade P xm ym c (p ++ [i]) x0 col0 lw0 with
    | none => rw [hc1] at hdraw; simp at hdraw
    | some l1 =>
    cases hc2 : rect_draw_children P xm ym cs p (i + 1) x0 col0 lw0 with
    | none => rw [hc1, hc2] at hdraw; simp at hdraw
    | some l2 =>
    rw [hc1, hc2] at hdraw
    simp only [Option.some.injEq] at hdraw
    subst hdraw
    obtain ⟨specA, specB⟩ := rect_draw_spec P xm ym c (p ++ [i]) x0 col0 lw0 l1 hc1
    obtain ⟨ihA, ihB⟩ := rect_draw_children_spec P xm ym cs p (i + 1) x0 col0 lw0 l2 hc2
    refine ⟨?_, ?_⟩
    · intro q hq
      have h0 := specA q (hq 0 (by simp) ∘ (by simpa using ·))
      have hr := ihA q (fun j hj hu => by
        have harith : i + 1 + j = i + (j + 1) := by omega
        rw [harith] at hu
        exact hq (j + 1) (by simpa using Nat.succ_lt_succ hj) hu)
      exact ⟨by rw [findLabelCmd_append_none _ _ _ h0.1]; exact hr.1,
        by rw [findHlineColor_append_none _ _ _ h0.2]; exact hr.2⟩
    · intro j cj hcj r d hsub
      cases j with
      | zero =>
        simp only [List.getElem?_cons_zero, Option.some.injEq] at hcj
        subst hcj
        simp only [Nat.add_zero]
        have hchild := specB r d hsub
        constructor
        · exact findHlineColor_append_some _ _ _ _ hchild.1
        · cases hexp : expectedLabel P d with
          | some b =>
            rw [hexp] at hchild
            exact findLabelCmd_append_some _ _ _ _ hchild.2
          | none =>
            rw [hexp] at hchild
            rw [findLabelCmd_append_none _ _ _ hchild.2]
            have hr := ihA (p ++ [i] ++ r) (fun j' hj' hu =>
              CPath.not_under_sibling (by omega : i + 1 + j' ≠ i) r (p := p) hu)
            exact hr.1
      | succ j' =>
        simp only [List.getElem?_cons_succ] at hcj
        have harith : i + (j' + 1) = i + 1 + j' := by omega
        rw [harith]
        have h0 := specA (p ++ [i + 1 + j'] ++ r)
          (CPath.not_under_sibling (by omega : i ≠ i + 1 + j') r (p := p))
        have hchild := ihB j' cj hcj r d hsub
        exact ⟨by rw [findHlineColor_append_none _ _ _ h0.2]; exact hchild.1,
          by rw [findLabelCmd_append_none _ _ _ h0.1]; exact hchild.2⟩

end

theorem findRayColor_arc_cons (q' : CPath) (yb yt x : ℝ) (colr : String) (lw : ℝ) (res : Nat)
    (rest : List CircCmd) (q : CPath) :
    findRayColor (CircCmd.arc q' yb yt x colr lw res :: rest) q = findRayColor rest q := rfl

theorem countTaxonLabels_arc_cons (q' : CPath) (yb yt x : ℝ) (colr : String) (lw : ℝ)
    (res : Nat) (rest : List CircCmd) :
    countTaxonLabels (CircCmd.arc q' yb yt x colr lw res :: rest) = countTaxonLabels rest := rfl

mutual

theorem circ_draw_spec (P : DrawParams) (xm ym : HMap ℝ) :
    ∀ (c : Clade) (p : CPath) (x0 : ℝ) (col0 : String) (lw0 : ℝ) (cmds : List CircCmd),
    circ_draw_clade P xm ym c p x0 col0 lw0 = some cmds →
    (∀ q, ¬ CPath.under p q → findRayColor cmds q = none)
    ∧ (∀ r d, subclade c r = some d → findRayColor cmds (p ++ r) = some (effColor c col0 r))
    ∧ countTaxonLabels cmds = 0
  | .mk bl cf nm w col cs, p, x0, col0, lw0, cmds, hdraw => by
    cases hxm : hfind p xm with
    | none => rw [circ_draw_clade, hxm] at hdraw; simp at hdraw
    | some x_here =>
    cases hym : hfind p ym with
    | none => rw [circ_draw_clade, hxm, hym] at hdraw; simp at hdraw
    | some y_here =>
    cases cs with
    | nil =>
      rw [circ_draw_clade, hxm, hym] at hdraw
      simp only [Option.some.injEq] at hdraw
      subst hdraw
      set c := Clade.mk bl cf nm w col ([] : List Clade) with hc
      have hshape : ([circ_hline p y_here x0 x_here (nodeColor c col0) (nodeLwR c (P.rcLineWidth : ℝ) lw0)] ++
          circ_conf_cmds P c p x0 x_here y_here : List CircCmd) =
          circ_hline p y_here x0 x_here (nodeColor c col0) (nodeLwR c (P.rcLineWidth : ℝ) lw0) ::
            circ_conf_cmds P c p x0 x_here y_here := by simp
      rw [hshape]
      refine ⟨?_, ?_, ?_⟩
      · intro q hq
        have hpq : p ≠ q := fun h => hq (by rw [← h]; exact CPath.under_self p)
        rw [findRayColor_circ_hline_cons, if_neg hpq]
        exact findRayColor_conf_cmds P c p x0 x_here y_here q
      · intro r d hsub
        obtain ⟨hr, hdc⟩ := (subclade_leaf_iff (by rw [hc]; rfl) r d).mp hsub
        subst hr
        subst hdc
        rw [List.append_nil, findRayColor_circ_hline_cons, if_pos rfl]
        rfl
      · have h1 := countTaxonLabels_circ_hline p y_here x0 x_here (nodeColor c col0)
          (nodeLwR c (P.rcLineWidth : ℝ) lw0)
        have h2 := countTaxonLabels_conf_cmds P c p x0 x_here y_here
        calc countTaxonLabels (circ_hline p y_here x0 x_here (nodeColor c col0)
              (nodeLwR c (P.rcLineWidth : ℝ) lw0) :: circ_conf_cmds P c p x0 x_here y_here)
            = countTaxonLabels [circ_hline p y_here x0 x_here (nodeColor c col0)
                (nodeLwR c (P.rcLineWidth : ℝ) lw0)] +
              countTaxonLabels (circ_conf_cmds P c p x0 x_here y_here) := by
              rw [← countTaxonLabels_append]; rfl
          _ = 0 := by rw [h1, h2]
    | cons c0 cs' =>
      rw [circ_draw_clade, hxm, hym] at hdraw
      dsimp only at hdraw
      cases hy0 : hfind (p ++ [0]) ym with
      | none => rw [hy0] at hdraw; simp at hdraw
      | some y_top =>
      cases hyl : hfind (p ++ [(c0 :: cs').length - 1]) ym with
      | none => rw [hy0, hyl] at hdraw; simp at hdraw
      | some y_bot =>
      cases hkids : circ_draw_children P xm ym (c0 :: cs') p 0 x_here
          (nodeColor (Clade.mk bl cf nm w col (c0 :: cs')) col0)
          (nodeLwR (Clade.mk bl cf nm w col (c0 :: cs')) (P.rcLineWidth : ℝ) lw0) with
      | none => rw [hy0, hyl, hkids] at hdraw; simp at hdraw
      | some rest =>
      rw [hy0, hyl, hkids] at hdraw
      simp only [Option.some.injEq] at hdraw
      subst hdraw
      set c := Clade.mk bl cf nm w col (c0 :: cs') with hc
      obtain ⟨ihA, ihB, ihC⟩ := circ_draw_children_spec P xm ym (c0 :: cs') p 0 x_here
        (nodeColor c col0) (nodeLwR c (P.rcLineWidth : ℝ) lw0) rest hkids
      have hshape : ([circ_hline p y_here x0 x_here (nodeColor c col0) (nodeLwR c (P.rcLineWidth : ℝ) lw0)] ++
          circ_conf_cmds P c p x0 x_here y_here ++
          [CircCmd.arc p y_bot y_top x_here (nodeColor c col0) (nodeLwR c (P.rcLineWidth : ℝ) lw0) 100] ++
          rest : List CircCmd) =
          circ_hline p y_here x0 x_here (nodeColor c col0) (nodeLwR c (P.rcLineWidth : ℝ) lw0) ::
            (circ_conf_cmds P c p x0 x_here y_here ++
              (CircCmd.arc p y_bot y_top x_here (nodeColor c col0)
                  (nodeLwR c (P.rcLineWidth : ℝ) lw0) 100 :: rest)) := by simp
      rw [hshape]
      refine ⟨?_, ?_, ?_⟩
      · intro q hq
        have hpq : p ≠ q := fun h => hq (by rw [← h]; exact CPath.under_self p)
        rw [findRayColor_circ_hline_cons, if_neg hpq,
          findRayColor_append_none _ _ _ (findRayColor_conf_cmds P c p x0 x_here y_here q),
          findRayColor_arc_cons]
        exact ihA q (fun j hj hu => hq (CPath.under_of_under_append hu))
      · intro r d hsub
        cases r with
        | nil =>
          rw [List.append_nil, findRayColor_circ_hline_cons, if_pos rfl]
          rfl
        | cons j r' =>
          have hsub' := hsub
          rw [show subclade c (j :: r') = _ from rfl] at hsub'
          rw [subclade_mk_cons] at hsub'
          cases hcj : (c0 :: cs')[j]? with
          | none => rw [hcj] at hsub'; simp at hsub'
          | some cj =>
          rw [hcj] at hsub'
          have hne : p ≠ p ++ j :: r' := CPath.ne_cons_extend p j r'
          have hchild := ihB j cj hcj r' d hsub'
          have htr : (p ++ [0 + j] ++ r' : CPath) = p ++ j :: r' := by simp
          rw [htr] at hchild
          have heff : effColor c col0 (j :: r') = effColor cj (nodeColor c col0) r' := by
            show effColor (Clade.mk bl cf nm w col (c0 :: cs')) col0 (j :: r') = _
            simp only [effColor, Clade.clades, hcj]
          rw [findRayColor_circ_hline_cons, if_neg hne,
            findRayColor_append_none _ _ _ (findRayColor_conf_cmds P c p x0 x_here y_here _),
            findRayColor_arc_cons, hchild, heff]
      · have h1 := countTaxonLabels_circ_hline p y_here x0 x_here (nodeColor c col0)
          (nodeLwR c (P.rcLineWidth : ℝ) lw0)
        have h2 := countTaxonLabels_conf_cmds P c p x0 x_here y_here
        calc countTaxonLabels (circ_hline p y_here x0 x_here (nodeColor c col0)
              (nodeLwR c (P.rcLineWidth : ℝ) lw0) ::
              (circ_conf_cmds P c p x0 x_here y_here ++
                (CircCmd.arc p y_bot y_top x_here (nodeColor c col0)
                    (nodeLwR c (P.rcLineWidth : ℝ) lw0) 100 :: rest)))
            = countTaxonLabels [circ_hline p y_here x0 x_here (nodeColor c col0)
                (nodeLwR c (P.rcLineWidth : ℝ) lw0)] +
              (countTaxonLabels (circ_conf_cmds P c p x0 x_here y_here) +
                countTaxonLabels (CircCmd.arc p y_bot y_top x_here (nodeColor c col0)
                  (nodeLwR c (P.rcLineWidth : ℝ) lw0) 100 :: rest)) := by
              rw [← countTaxonLabels_append, ← countTaxonLabels_append]; rfl
          _ = 0 := by rw [h1, h2, countTaxonLabels_arc_cons, ihC]

theorem circ_draw_children_spec (P : DrawParams) (xm ym : HMap ℝ) :
    ∀ (cs : List Clade) (p : CPath) (i : Nat) (x0 : ℝ) (col0 : String) (lw0 : ℝ)
      (cmds : List CircCmd),
    circ_draw_children P xm ym cs p i x0 col0 lw0 = some cmds →
    (∀ q, (∀ j, j < cs.length → ¬ CPath.under (p ++ [i + j]) q) → findRayColor cmds q = none)
    ∧ (∀ j cj, cs[j]? = some cj → ∀ r d, subclade cj r = some d →
        findRayColor cmds (p ++ [i + j] ++ r) = some (effColor cj col0 r))
    ∧ countTaxonLabels cmds = 0
  | [], p, i, x0, col0, lw0, cmds, hdraw => by
    simp only [circ_draw_children, Option.some.injEq] at hdraw
    subst hdraw
    refine ⟨fun q _ => rfl, ?_, rfl⟩
    intro j cj hcj
    simp at hcj
  | c :: cs, p, i, x0, col0, lw0, cmds, hdraw => by
    rw [circ_draw_children] at hdraw
    cases hc1 : circ_draw_clade P xm ym c (p ++ [i]) x0 col0 lw0 with
    | none => rw [hc1] at hdraw; simp at hdraw
    | some l1 =>
    cases hc2 : circ_draw_children P xm ym cs p (i + 1) x0 col0 lw0 with
    | none => rw [hc1, hc2] at hdraw; simp at hdraw
    | some l2 =>
    rw [hc1, hc2] at hdraw
    simp only [Option.some.injEq] at hdraw
    subst hdraw
    obtain ⟨specA, specB, specC⟩ := circ_draw_spec P xm ym c (p ++ [i]) x0 col0 lw0 l1 hc1
    obtain ⟨ihA, ihB, ihC⟩ := circ_draw_children_spec P xm ym cs p (i + 1) x0 col0 lw0 l2 hc2
    refine ⟨?_, ?_, ?_⟩
    · intro q hq
      have h0 := specA q (hq 0 (by simp) ∘ (by simpa using ·))
      rw [findRayColor_append_none _ _ _ h0]
      exact ihA q (fun j hj hu => by
        have harith : i + 1 + j = i + (j + 1) := by omega
        rw [harith] at hu
        exact hq (j + 1) (by simpa using Nat.succ_lt_succ hj) hu)
    · intro j cj hcj r d hsub
      cases j with
      | zero =>
        simp only [List.getElem?_cons_zero, Option.some.injEq] at hcj
        subst hcj
        simp only [Nat.add_zero]
        exact findRayColor_append_some _ _ _ _ (specB r d hsub)
      | succ j' =>
        simp only [List.getElem?_cons_succ] at hcj
        have harith : i + (j' + 1) = i + 1 + j' := by omega
        rw [harith]
        have h0 := specA (p ++ [i + 1 + j'] ++ r)
          (CPath.not_under_sibling (by omega : i ≠ i + 1 + j') r (p := p))
        rw [findRayColor_append_none _ _ _ h0]
        exact ihB j' cj hcj r d hsub
    · rw [countTaxonLabels_append, specC, ihC]

end

/-! ### Keyword-argument processing (tail of `drawMark`, both scripts) -/

/-- Python values passed as extra keyword arguments to `drawMark`. -/
inductive PyVal : Type where
  | pyint (n : Int)
  | pystr (s : String)
  | pytuple (items : List PyVal)
  | pydict (entries : List (String × PyVal))

/-- Python iterability: `[i for i in value]` succeeds for strings,
tuples and dicts and raises `TypeError` for numbers (which the source
turns into the `ValueError`). -/
def PyVal.iterable : PyVal → Bool
  | .pyint _ => false
  | _ => true

/-- The elements obtained by iterating / unpacking the value: characters
of a string, items of a tuple, keys of a dict. -/
def PyVal.elements : PyVal → List PyVal
  | .pyint _ => []
  | .pystr s => s.data.map (fun ch => PyVal.pystr (String.singleton ch))
  | .pytuple l => l
  | .pydict d => d.map (fun e => PyVal.pystr e.1)

def PyVal.isDict : PyVal → Bool
  | .pydict _ => true
  | _ => false

mutual

/-- Python `repr`. -/
def pyRepr : PyVal → String
  | .pyint n => toString n
  | .pystr s => "\x27" ++ s ++ "\x27"
  | .pytuple l => "(" ++ pyReprList l ++ ")"
  | .pydict d => "\x7b" ++ pyReprDict d ++ "\x7d"

def pyReprList : List PyVal → String
  | [] => ""
  | [v] => pyRepr v
  | v :: l => pyRepr v ++ ", " ++ pyReprList l

def pyReprDict : List (String × PyVal) → String
  | [] => ""
  | [e] => "\x27" ++ e.1 ++ "\x27: " ++ pyRepr e.2
  | e :: l => "\x27" ++ e.1 ++ "\x27: " ++ pyRepr e.2 ++ ", " ++ pyReprDict l

end

/-- Python `str`, as used by the `%s` formatting in the error message. -/
def pyStr : PyVal → String
  | .pyint n => toString n
  | .pystr s => s
  | v => pyRepr v

/-- The `ValueError` message raised for a non-iterable keyword value
(the source's three adjacent string literals, concatenated, with the
`%s` fields filled in). -/
def kwargErrorMsg (k : String) (v : PyVal) : String :=
  "Keyword argument \"" ++ k ++ "=" ++ pyStr v ++
    "\" is not in the format pyplot_option_name=(tuple), pyplot_option_name=(tuple, dict), or pyplot_option_name=(dict) "

/-- Python exceptions the kwargs loop can raise. -/
inductive PyErr : Type where
  | valueError (msg : String)
  | indexError
  | typeError

/-- A dispatched call `getattr(plt, str(key))(*args, **kwargs)`. -/
structure PlotCall where
  func : String
  args : List PyVal
  kwargs : List (String × PyVal)

/-- One iteration of the kwargs loop of `drawMark`: check iterability
(else `ValueError` naming the argument); a dict is passed as keyword
options; otherwise `value[0]` is inspected (an `IndexError` escapes on
an empty sequence): a leading tuple selects the `.plot(*value[0],
**dict(value[1]))` form (IndexError when `value[1]` is missing,
TypeError when it is not dict-like), anything else the `.plot(*value)`
form. -/
def processKwarg (k : String) (v : PyVal) : Except PyErr PlotCall :=
  if PyVal.iterable v then
    match v with
    | .pydict d => .ok ⟨k, [], d⟩
    | _ =>
      match (PyVal.elements v)[0]? with
      | none => .error .indexError
      | some v0 =>
        match v0 with
        | .pytuple t0 =>
          match (PyVal.elements v)[1]? with
          | none => .error .indexError
          | some v1 =>
            match v1 with
            | .pydict d1 => .ok ⟨k, t0, d1⟩
            | _ => .error .typeError
        | _ => .ok ⟨k, PyVal.elements v, []⟩
  else
    .error (.valueError (kwargErrorMsg k v))

/-- The kwargs loop: process arguments in order, aborting at the first
raised exception. -/
def processKwargs : List (String × PyVal) → Except PyErr (List PlotCall)
  | [] => .ok []
  | (k, v) :: rest =>
    match processKwarg k v with
    | .ok call => (processKwargs rest).map (call :: ·)
    | .error e => .error e

/-- The dispatchable shapes: a dict, a nonempty sequence whose first
element is not a tuple, or a sequence of a tuple followed by a dict. -/
def dispatchable (v : PyVal) : Bool :=
  match v with
  | .pydict _ => true
  | _ =>
    match (PyVal.elements v)[0]? with
    | none => false
    | some v0 =>
      match v0 with
      | .pytuple _ =>
        match (PyVal.elements v)[1]? with
        | none => false
        | some (PyVal.pydict _) => true
        | some _ => false
      | _ => true

/-! ### Import behaviour of `drawMark` (claim C7) -/

/-- Python control outcomes of the import logic. -/
inductive PyRaise : Type where
  | ok
  | importError (module : String)
  | nameError (name : String)
  | missingDependency (msg : String)
deriving DecidableEq

/-- The names bound at module level of trees.py: its three imports and
its two functions and one variable.  `MissingPythonDependencyError` is
not among them — the script neither imports nor defines it. -/
def treesPyGlobalNames : List String :=
  ["Phylo", "plt", "pylab", "drawMark", "drawTree", "toMark"]

/-- The names bound at module level of circTrees.py. -/
def circTreesPyGlobalNames : List String :=
  ["Phylo", "np", "plt", "pylab", "drawMark", "drawTree", "toMark"]

/-- Loading trees.py: the module-level `from Bio import Phylo`,
`import matplotlib as plt` and `import pylab` run before any function
body, so a missing library aborts the whole script with `ImportError`. -/
def treesPy_module_load (bioAvailable mplAvailable pylabAvailable : Bool) : PyRaise :=
  if ¬ bioAvailable then .importError "Bio"
  else if ¬ mplAvailable then .importError "matplotlib"
  else if ¬ pylabAvailable then .importError "pylab"
  else .ok

/-- Loading circTrees.py (it additionally imports numpy). -/
def circTreesPy_module_load (bioAvailable numpyAvailable mplAvailable pylabAvailable : Bool) :
    PyRaise :=
  if ¬ bioAvailable then .importError "Bio"
  else if ¬ numpyAvailable then .importError "numpy"
  else if ¬ mplAvailable then .importError "matplotlib"
  else if ¬ pylabAvailable then .importError "pylab"
  else .ok

/-- The `try: import matplotlib.pyplot as plt` / `except: try: import
pylab as plt` / `except: raise MissingPythonDependencyError(...)` block
at the top of `drawMark`.  Evaluating the `raise` statement looks the
name `MissingPythonDependencyError` up in the enclosing scopes; when it
is not bound, Python raises `NameError` instead of the intended
dependency error. -/
def drawMark_import_plt (mplAvailable pylabAvailable : Bool) (globalNames : List String) :
    PyRaise :=
  if mplAvailable then .ok
  else if pylabAvailable then .ok
  else if globalNames.contains "MissingPythonDependencyError" then
    .missingDependency "Install matplotlib or pylab if you want to use draw."
  else .nameError "MissingPythonDependencyError"

/-! ### `common_ancestor` and clade colouring (circTrees `drawTree`) -/

mutual

/-- The path of the first clade, in preorder, whose `name` equals the
target string — Biopython's depth-first search for a string target, as
used by `get_path` inside `common_ancestor`. -/
def findPathByName : Clade → String → CPath → Option CPath
  | .mk _ _ nm _ _ cs, target, p =>
    if nm = some target then some p
    else findPathByNameList cs target p 0

def findPathByNameList : List Clade → String → CPath → Nat → Option CPath
  | [], _, _, _ => none
  | c :: cs, target, p, i =>
    match findPathByName c target (p ++ [i]) with
    | some q => some q
    | none => findPathByNameList cs target p (i + 1)

end

/-- Longest common prefix of two paths (the `zip`-walk of Biopython's
`common_ancestor`, which keeps extending the ancestor while the paths
agree). -/
def commonPrefix : CPath → CPath → CPath
  | [], _ => []
  | _ :: _, [] => []
  | a :: p, b :: q => if a = b then a :: commonPrefix p q else []

/-- Biopython `tree.common_ancestor(t1, t2)` restricted to paths: the
longest common prefix of the two targets' paths; `none` (a `ValueError`
in the source) when a target is not found. -/
def common_ancestor_path (t : Clade) (t1 t2 : String) : Option CPath :=
  match findPathByName t t1 [], findPathByName t t2 [] with
  | some p1, some p2 => some (commonPrefix p1 p2)
  | _, _ => none

mutual

/-- The assignment `clade.color = col` performed on the clade addressed
by `p` (circTrees.py colours the common ancestor red). -/
def setColorAt : Clade → CPath → String → Clade
  | .mk bl cf nm w _ cs, [], newc => .mk bl cf nm w (some newc) cs
  | .mk bl cf nm w col cs, j :: r, newc => .mk bl cf nm w col (setColorAtList cs j r newc)
termination_by c p newc => (p.length, 0)

def setColorAtList : List Clade → Nat → CPath → String → List Clade
  | [], _, _, _ => []
  | c :: cs, 0, r, newc => setColorAt c r newc :: cs
  | c :: cs, j + 1, r, newc => c :: setColorAtList cs j r newc
termination_by cs j r newc => (r.length, j + 1)

end

/-- circTrees.py `drawTree`: colour the common ancestor of the two
hard-coded taxa red, then run the polar `drawMark`.  `none` models the
uncaught `ValueError` when a taxon is absent from the tree. -/
noncomputable def circ_drawTree_draw (P : DrawParams) (t : Clade) (t1 t2 : String) :
    Option (List CircCmd) :=
  match common_ancestor_path t t1 t2 with
  | none => none
  | some pa => circ_drawMark_draw P (setColorAt t pa "r")

/-! ### `drawTree` I/O model (claim C8) -/

/-- The observable effects of a `drawTree` run, in order. -/
inductive PltEffect : Type where
  | rcFont (size : ℚ)
  | rcLines (lw : ℚ) (color : String)
  | rcFigure (figX figY : ℚ)
  | readTree (path : String) (format : String)
  | ladderizeTree
  | colorCommonAncestor (name1 name2 : String) (color : String)
  | drawMarkCall (doShow : Bool) (mark : List String)
  | axisOff
  | savefig (fname : String) (format : String) (dpi : ℚ)

/-- trees.py `drawTree`: rc settings, `Phylo.read(treeName + '.nwk',
"newick")`, optional ladderize, `drawMark`, axis off, then
`pylab.savefig("{0}.{1}".format(treeName, outFormat), format=outFormat,
..., dpi=outDPI)` — the format call yields `treeName ++ "." ++
outFormat`. -/
def trees_drawTree (treeName : String) (outX outY : ℚ) (outFormat : String) (outDPI : ℚ)
    (ladderize : Bool) (fontSize lineWidth : ℚ) (mark : List String) : List PltEffect :=
  [.rcFont fontSize, .rcLines lineWidth "k", .rcFigure outX 10,
   .readTree (treeName ++ ".nwk") "newick"] ++
  (if ladderize then [.ladderizeTree] else []) ++
  [.drawMarkCall false mark, .axisOff,
   .savefig (treeName ++ "." ++ outFormat) outFormat outDPI]

/-- circTrees.py `drawTree`, for a run in which `common_ancestor`
succeeds (otherwise the script aborts before drawing).  It passes
`mark=[]` to `drawMark` and does not use its `mark` parameter. -/
def circTrees_drawTree (treeName : String) (outX outY : ℚ) (outFormat : String) (outDPI : ℚ)
    (ladderize : Bool) (fontSize lineWidth : ℚ) (mark : List String)
    (toMark0 toMark1 : String) : List PltEffect :=
  [.rcFont fontSize, .rcLines lineWidth "k", .rcFigure outX 10,
   .readTree (treeName ++ ".nwk") "newick"] ++
  (if ladderize then [.ladderizeTree] else []) ++
  [.colorCommonAncestor toMark0 toMark1 "r",
   .drawMarkCall false [], .axisOff,
   .savefig (treeName ++ "." ++ outFormat) outFormat outDPI]

/-- The two hard-coded taxa of circTrees.py. -/
def circ_toMark : List String :=
  ["XP_021076601.1_H(+)/Cl(-)_exchange_transporter_7_isoform_X3_Mus_pahari",
   "XP_012063553.1_PREDICTED:_H(+)/Cl(-)_exchange_transporter_7_Atta_cephalotes"]

/-- The two hard-coded taxa of trees.py. -/
def trees_toMark : List String :=
  ["NP_001278.1 Homo sapiens (human)",
   "NP_001278.1 H/Cl-exchange transporter 7"]

/-! ### Effective colour lemmas -/

theorem effColor_colorless : ∀ (c : Clade) (base : String) (r : CPath),
    (∀ q cq, subclade c q = some cq → cq.color = none) → effColor c base r = base
  | c, base, [], hcol => by
    have hroot := hcol [] c rfl
    simp [effColor, nodeColor, hroot]
  | c, base, j :: r, hcol => by
    cases c with
    | mk bl cf nm w col cs =>
      have hroot := hcol [] _ rfl
      simp only [Clade.color] at hroot
      subst hroot
      simp only [effColor, Clade.clades]
      cases hcj : cs[j]? with
      | none => simp [nodeColor, Clade.color]
      | some cj =>
        have hsubtree : ∀ q cq, subclade cj q = some cq → cq.color = none := by
          intro q cq hq
          refine hcol (j :: q) cq ?_
          rw [subclade_cons_of_getElem (by simpa [Clade.clades] using hcj) q]
          exact hq
        dsimp only
        rw [effColor_colorless cj _ r hsubtree]
        simp [nodeColor, Clade.color]

theorem setColorAtList_getElem : ∀ (cs : List Clade) (i : Nat) (r : CPath) (newc : String)
    (j : Nat), (setColorAtList cs i r newc)[j]? =
      if j = i then (cs[j]?).map (fun cj => setColorAt cj r newc) else cs[j]?
  | [], i, r, newc, j => by
    rw [setColorAtList]
    by_cases h : j = i <;> simp [h]
  | c :: cs, 0, r, newc, 0 => by rw [setColorAtList]; simp
  | c :: cs, 0, r, newc, j + 1 => by rw [setColorAtList]; simp
  | c :: cs, i + 1, r, newc, 0 => by rw [setColorAtList]; simp
  | c :: cs, i + 1, r, newc, j + 1 => by
    rw [setColorAtList]
    simp only [List.getElem?_cons_succ]
    rw [setColorAtList_getElem cs i r newc j]
    by_cases h : j = i
    · simp [h]
    · simp [h, fun hc : j + 1 = i + 1 => h (by omega)]

theorem setColorAt_nil_eq (bl cf : Option ℚ) (nm : Option String) (w : Option ℚ)
    (col : Option String) (cs : List Clade) (newc : String) :
    setColorAt (Clade.mk bl cf nm w col cs) [] newc = Clade.mk bl cf nm w (some newc) cs := by
  rw [setColorAt]

theorem setColorAt_cons_eq (bl cf : Option ℚ) (nm : Option String) (w : Option ℚ)
    (col : Option String) (cs : List Clade) (i : Nat) (pa : CPath) (newc : String) :
    setColorAt (Clade.mk bl cf nm w col cs) (i :: pa) newc =
      Clade.mk bl cf nm w col (setColorAtList cs i pa newc) := by
  rw [setColorAt]

theorem subclade_setColorAt_isSome : ∀ (pa : CPath) (t : Clade) (newc : String) (q : CPath),
    (subclade (setColorAt t pa newc) q).isSome = (subclade t q).isSome
  | [], .mk bl cf nm w col cs, newc, q => by
    rw [setColorAt_nil_eq]
    cases q with
    | nil => rfl
    | cons j r => rw [subclade_mk_cons, subclade_mk_cons]
  | i :: pa', .mk bl cf nm w col cs, newc, q => by
    rw [setColorAt_cons_eq]
    cases q with
    | nil => rfl
    | cons j r =>
      rw [subclade_mk_cons, subclade_mk_cons, setColorAtList_getElem]
      by_cases h : j = i
      · subst h
        cases hc : cs[j]? with
        | none => simp
        | some cj =>
          simp only [Option.map_some]
          exact subclade_setColorAt_isSome pa' cj newc r
      · rw [if_neg h]

theorem effColor_setColorAt : ∀ (pa : CPath) (t : Clade) (newc base : String) (r : CPath),
    (∀ q cq, subclade t q = some cq → cq.color = none) →
    (subclade t pa).isSome = true →
    effColor (setColorAt t pa newc) base (pa ++ r) = newc
  | [], .mk bl cf nm w col cs, newc, base, r, hcol, _ => by
    rw [setColorAt_nil_eq, List.nil_append]
    cases r with
    | nil => simp [effColor, nodeColor, Clade.color]
    | cons j r' =>
      simp only [effColor, Clade.clades]
      cases hcj : cs[j]? with
      | none => simp [nodeColor, Clade.color]
      | some cj =>
        have hsubtree : ∀ q cq, subclade cj q = some cq → cq.color = none := by
          intro q cq hq
          refine hcol (j :: q) cq ?_
          rw [subclade_cons_of_getElem (by simpa [Clade.clades] using hcj) q]
          exact hq
        dsimp only
        rw [effColor_colorless cj _ r' hsubtree]
        simp [nodeColor, Clade.color]
  | i :: pa', .mk bl cf nm w col cs, newc, base, r, hcol, hval => by
    rw [setColorAt_cons_eq]
    show effColor (Clade.mk bl cf nm w col (setColorAtList cs i pa' newc)) base
      (i :: (pa' ++ r)) = newc
    simp only [effColor, Clade.clades]
    rw [setColorAtList_getElem, if_pos rfl]
    have hvi : (subclade (Clade.mk bl cf nm w col cs) (i :: pa')).isSome = true := hval
    rw [subclade_mk_cons] at hvi
    cases hci : cs[i]? with
    | none => rw [hci] at hvi; simp at hvi
    | some ci =>
      rw [hci] at hvi
      have hvi2 : (subclade ci pa').isSome = true := hvi
      have hsubtree : ∀ q cq, subclade ci q = some cq → cq.color = none := by
        intro q cq hq
        refine hcol (i :: q) cq ?_
        rw [subclade_cons_of_getElem (by simpa [Clade.clades] using hci) q]
        exact hq
      show effColor (setColorAt ci pa' newc)
          (nodeColor (Clade.mk bl cf nm w col (setColorAtList cs i pa' newc)) base)
          (pa' ++ r) = newc
      exact effColor_setColorAt pa' ci newc _ r hsubtree hvi2

/-! ### `common_ancestor` validity -/

mutual

theorem findPathByName_valid : ∀ (c : Clade) (target : String) (p q : CPath),
    findPathByName c target p = some q →
    ∃ r, q = p ++ r ∧ (subclade c r).isSome = true
  | .mk bl cf nm w col cs, target, p, q, h => by
    rw [findPathByName] at h
    by_cases hnm : nm = some target
    · rw [if_pos hnm] at h
      simp only [Option.some.injEq] at h
      exact ⟨[], by simp [h.symm], rfl⟩
    · rw [if_neg hnm] at h
      obtain ⟨j, cj, r, hcj, hq, hsub⟩ := findPathByNameList_valid cs target p 0 q h
      refine ⟨j :: r, ?_, ?_⟩
      · simpa using hq
      · rw [subclade_cons_of_getElem (by simpa [Clade.clades] using hcj) r]
        exact hsub

theorem findPathByNameList_valid : ∀ (cs : List Clade) (target : String) (p : CPath) (i : Nat)
    (q : CPath), findPathByNameList cs target p i = some q →
    ∃ j cj r, cs[j]? = some cj ∧ q = p ++ [i + j] ++ r ∧ (subclade cj r).isSome = true
  | [], target, p, i, q, h => by rw [findPathByNameList] at h; simp at h
  | c :: cs, target, p, i, q, h => by
    rw [findPathByNameList] at h
    cases hfst : findPathByName c target (p ++ [i]) with
    | some q1 =>
      rw [hfst] at h
      simp only [Option.some.injEq] at h
      subst h
      obtain ⟨r, hq, hsub⟩ := findPathByName_valid c target (p ++ [i]) q1 hfst
      exact ⟨0, c, r, by simp, by simpa using hq, hsub⟩
    | none =>
      rw [hfst] at h
      obtain ⟨j, cj, r, hcj, hq, hsub⟩ := findPathByNameList_valid cs target p (i + 1) q h
      refine ⟨j + 1, cj, r, by simpa using hcj, ?_, hsub⟩
      have harith : i + 1 + j = i + (j + 1) := by omega
      rwa [harith] at hq

end

theorem commonPrefix_under : ∀ (p q : CPath), CPath.under (commonPrefix p q) p
  | [], q => ⟨[], rfl⟩
  | a :: p, [] => ⟨a :: p, rfl⟩
  | a :: p, b :: q => by
    by_cases h : a = b
    · obtain ⟨r, hr⟩ := commonPrefix_under p q
      exact ⟨r, by simp [commonPrefix, h, ← hr]⟩
    · exact ⟨a :: p, by simp [commonPrefix, h]⟩

theorem subclade_isSome_of_under {t : Clade} {a q : CPath} (h : CPath.under a q)
    (hq : (subclade t q).isSome = true) : (subclade t a).isSome = true := by
  obtain ⟨r, hr⟩ := h
  subst hr
  rw [subclade_append] at hq
  cases ha : subclade t a with
  | none => rw [ha] at hq; simp at hq
  | some d => rfl

theorem common_ancestor_path_valid (t : Clade) (t1 t2 : String) (pa : CPath)
    (h : common_ancestor_path t t1 t2 = some pa) : (subclade t pa).isSome = true := by
  rw [common_ancestor_path] at h
  cases h1 : findPathByName t t1 [] with
  | none => rw [h1] at h; simp at h
  | some q1 =>
    cases h2 : findPathByName t t2 [] with
    | none => rw [h1, h2] at h; simp at h
    | some q2 =>
      rw [h1, h2] at h
      simp only [Option.some.injEq] at h
      subst h
      obtain ⟨r, hq, hsub⟩ := findPathByName_valid t t1 [] q1 h1
      simp only [List.nil_append] at hq
      subst hq
      exact subclade_isSome_of_under (commonPrefix_under q1 q2) hsub

/-! ### Tree-wide boolean checks and further colour algebra -/

mutual

/-- Check a boolean property of every clade of a tree. -/
def allClades (pred : Clade → Bool) : Clade → Bool
  | .mk bl cf nm w col cs => pred (.mk bl cf nm w col cs) && allCladesList pred cs

def allCladesList (pred : Clade → Bool) : List Clade → Bool
  | [] => true
  | c :: cs => allClades pred c && allCladesList pred cs

end

mutual

theorem allClades_sound : ∀ (pred : Clade → Bool) (t : Clade), allClades pred t = true →
    ∀ p c, subclade t p = some c → pred c = true
  | pred, .mk bl cf nm w col cs, h, p, c, hp => by
    rw [allClades] at h
    rw [Bool.and_eq_true] at h
    cases p with
    | nil =>
      simp only [subclade, Option.some.injEq] at hp
      rw [← hp]
      exact h.1
    | cons j r =>
      rw [subclade_mk_cons] at hp
      cases hcj : cs[j]? with
      | none => rw [hcj] at hp; simp at hp
      | some cj =>
        rw [hcj] at hp
        have hmem : cj ∈ cs := by
          have hlt : j < cs.length := by
            by_contra hge
            rw [List.getElem?_eq_none (by omega)] at hcj
            exact Option.noConfusion hcj
          have := List.getElem?_eq_getElem hlt
          rw [this] at hcj
          simp only [Option.some.injEq] at hcj
          rw [← hcj]
          exact List.getElem_mem hlt
        exact allCladesList_sound pred cs h.2 cj hmem r c hp

theorem allCladesList_sound : ∀ (pred : Clade → Bool) (cs : List Clade),
    allCladesList pred cs = true → ∀ cj, cj ∈ cs →
    ∀ p c, subclade cj p = some c → pred c = true
  | pred, [], h, cj, hcj => by simp at hcj
  | pred, c0 :: cs, h, cj, hcj => by
    rw [allCladesList] at h
    rw [Bool.and_eq_true] at h
    rcases List.mem_cons.mp hcj with hc | hc
    · subst hc
      exact allClades_sound pred cj h.1
    · exact allCladesList_sound pred cs h.2 cj hc

end

theorem nodeColor_idem (c : Clade) (b : String) :
    nodeColor c (nodeColor c b) = nodeColor c b := by
  cases hcol : c.color <;> simp [nodeColor, hcol]

theorem effColor_base_nodeColor : ∀ (c : Clade) (b : String) (r : CPath),
    effColor c (nodeColor c b) r = effColor c b r
  | c, b, [] => by simp [effColor, nodeColor_idem]
  | c, b, j :: r => by
    cases c with
    | mk bl cf nm w col cs =>
      simp only [effColor, Clade.clades]
      cases hcj : cs[j]? with
      | none => exact nodeColor_idem _ b
      | some cj => rw [nodeColor_idem]

theorem effColor_append : ∀ (pa : CPath) (t : Clade) (base : String) (r : CPath) (c : Clade),
    subclade t pa = some c → effColor t base (pa ++ r) = effColor c (effColor t base pa) r
  | [], t, base, r, c, h => by
    simp only [subclade, Option.some.injEq] at h
    subst h
    rw [List.nil_append]
    show effColor t base r = effColor t (nodeColor t base) r
    rw [effColor_base_nodeColor]
  | i :: pa', .mk bl cf nm w col cs, base, r, c, h => by
    rw [subclade_mk_cons] at h
    cases hci : cs[i]? with
    | none => rw [hci] at h; simp at h
    | some ci =>
      rw [hci] at h
      show effColor (Clade.mk bl cf nm w col cs) base (i :: (pa' ++ r)) = _
      simp only [effColor, Clade.clades, hci]
      exact effColor_append pa' ci (nodeColor (Clade.mk bl cf nm w col cs) base) r c h

theorem effColor_last_colored : ∀ (pa : CPath) (t : Clade) (base : String) (c : Clade)
    (colr : String), subclade t pa = some c → c.color = some colr →
    effColor t base pa = colr
  | [], t, base, c, colr, h, hcol => by
    simp only [subclade, Option.some.injEq] at h
    subst h
    simp [effColor, nodeColor, hcol]
  | i :: pa', .mk bl cf nm w col cs, base, c, colr, h, hcol => by
    rw [subclade_mk_cons] at h
    cases hci : cs[i]? with
    | none => rw [hci] at h; simp at h
    | some ci =>
      rw [hci] at h
      simp only [effColor, Clade.clades, hci]
      exact effColor_last_colored pa' ci _ c colr h hcol

theorem effColor_path_colorless : ∀ (r : CPath) (c : Clade) (base : String),
    (∀ s cq, s ≠ [] → CPath.under s r → subclade c s = some cq → cq.color = none) →
    effColor c base r = nodeColor c base
  | [], c, base, _ => rfl
  | j :: r', .mk bl cf nm w col cs, base, hcol => by
    simp only [effColor, Clade.clades]
    cases hcj : cs[j]? with
    | none => rfl
    | some cj =>
      have hcjcol : cj.color = none := by
        refine hcol [j] cj (by simp) ⟨r', rfl⟩ ?_
        rw [subclade_cons_of_getElem (by simpa [Clade.clades] using hcj) []]
        rfl
      show effColor cj (nodeColor (Clade.mk bl cf nm w col cs) base) r' =
        nodeColor (Clade.mk bl cf nm w col cs) base
      rw [effColor_path_colorless r' cj _ ?_]
      · simp [nodeColor, hcjcol]
      · intro s cq hs hu hq
        obtain ⟨ws, hws⟩ := hu
        refine hcol (j :: s) cq (by simp) ⟨ws, by simp [hws]⟩ ?_
        rw [subclade_cons_of_getElem (by simpa [Clade.clades] using hcj) s]
        exact hq

/-- The final y value of the `j`-th terminal (in traversal order). -/
theorem gen_y_tip_value {α : Type} [LinearOrderedField α] (tv : Nat → α) (t : Clade) (j : Nat)
    (hj : j < (terminalPaths t []).length) :
    hfind ((terminalPaths t []).get ⟨j, hj⟩) (get_y_positions_gen tv t) =
      some (tv (count_terminals t - 1 - j)) := by
  have hmem : (terminalPaths t []).get ⟨j, hj⟩ ∈ terminalPaths t [] :=
    List.get_mem (terminalPaths t []) j hj
  obtain ⟨r, d, hq, hsub, hd⟩ := terminalPaths_sound t [] _ hmem
  rw [List.nil_append] at hq
  have h1 := (get_y_spec tv t).1 r d hsub hd
  rw [← hq] at h1
  rw [h1]
  exact hfind_tipHeights_get tv t j hj

/-! ### Concrete fixtures for witnesses and counterexamples -/

/-- A named leaf. -/
def leafA : Clade := .mk none none (some "A") none none []

def leafB : Clade := .mk none none (some "B") none none []

/-- A two-leaf tree (root with children `A` and `B`). -/
def wtree2 : Clade := .mk none none none none none [leafA, leafB]

/-- Drawing parameters as `drawTree` sets them up:
`label_func = lambda n: n.name`, highlight set `["A"]`, defaults
`markColor='r'`, `markWeight='bold'`, `show_confidence=True`. -/
def wparams : DrawParams :=
  ⟨Clade.name, ["A"], "r", "bold", none, true, 1⟩

/-! ### Claim C1 -/

/-- Claim C1 (confirmed): in both the rectangular and the polar script,
`get_y_positions` assigns every internal clade a y-coordinate equal to
the arithmetic mean of the y-coordinates of its first child and its
last child. -/
theorem C1_internal_midpoint (t : Clade) (p : CPath) (c : Clade)
    (hsub : subclade t p = some c) (hne : c.clades ≠ []) :
    (∃ y0 y1, hfind (p ++ [0]) (rect_get_y_positions t) = some y0 ∧
      hfind (p ++ [c.clades.length - 1]) (rect_get_y_positions t) = some y1 ∧
      hfind p (rect_get_y_positions t) = some ((y0 + y1) / 2)) ∧
    (∃ z0 z1, hfind (p ++ [0]) (circ_get_y_positions t) = some z0 ∧
      hfind (p ++ [c.clades.length - 1]) (circ_get_y_positions t) = some z1 ∧
      hfind p (circ_get_y_positions t) = some ((z0 + z1) / 2)) := by
  constructor
  · obtain ⟨a, b, ha, hb, hm⟩ := (get_y_spec (rectTipVal (count_terminals t)) t).2 p c hsub hne
    exact ⟨a, b, ha, hb, hm⟩
  · obtain ⟨a, b, ha, hb, hm⟩ := (get_y_spec (circTipVal (count_terminals t)) t).2 p c hsub hne
    exact ⟨a, b, ha, hb, hm⟩

/-- Witness for C1 at the concrete two-leaf tree, whose root is
internal. -/
theorem C1_witness :
    (∃ y0 y1, hfind ([] ++ [0]) (rect_get_y_positions wtree2) = some y0 ∧
      hfind ([] ++ [wtree2.clades.length - 1]) (rect_get_y_positions wtree2) = some y1 ∧
      hfind [] (rect_get_y_positions wtree2) = some ((y0 + y1) / 2)) ∧
    (∃ z0 z1, hfind ([] ++ [0]) (circ_get_y_positions wtree2) = some z0 ∧
      hfind ([] ++ [wtree2.clades.length - 1]) (circ_get_y_positions wtree2) = some z1 ∧
      hfind [] (circ_get_y_positions wtree2) = some ((z0 + z1) / 2)) :=
  C1_internal_midpoint wtree2 [] wtree2 rfl (by simp [wtree2, Clade.clades])

/-! ### Claim C2 -/

/-- Claim C2 (confirmed): the y-coordinates of the leaves are strictly
increasing in left-to-right terminal order and evenly spaced:
consecutive leaves differ by exactly 1 in trees.py, and by exactly
2·π divided by the leaf count in circTrees.py. -/
theorem C2_leaf_spacing (t : Clade) (j : Nat) (hj : j + 1 < count_terminals t) :
    ∃ pj pk yj yk zj zk,
      (terminalPaths t [])[j]? = some pj ∧ (terminalPaths t [])[j + 1]? = some pk ∧
      hfind pj (rect_get_y_positions t) = some yj ∧
      hfind pk (rect_get_y_positions t) = some yk ∧
      yk = yj + 1 ∧ yj < yk ∧
      hfind pj (circ_get_y_positions t) = some zj ∧
      hfind pk (circ_get_y_positions t) = some zk ∧
      zk = zj + 2 * Real.pi / (count_terminals t : ℝ) ∧ zj < zk := by
  have hlen : (terminalPaths t []).length = count_terminals t := rfl
  have hj1 : j < (terminalPaths t []).length := by omega
  have hj2 : j + 1 < (terminalPaths t []).length := by omega
  have hnat : count_terminals t - 1 - j = (count_terminals t - 1 - (j + 1)) + 1 := by omega
  have hrect1 := gen_y_tip_value (rectTipVal (count_terminals t)) t j hj1
  have hrect2 := gen_y_tip_value (rectTipVal (count_terminals t)) t (j + 1) hj2
  have hcirc1 := gen_y_tip_value (circTipVal (count_terminals t)) t j hj1
  have hcirc2 := gen_y_tip_value (circTipVal (count_terminals t)) t (j + 1) hj2
  have hstep : rectTipVal (count_terminals t) (count_terminals t - 1 - j) + 1 =
      rectTipVal (count_terminals t) (count_terminals t - 1 - (j + 1)) := by
    rw [hnat]
    simp only [rectTipVal]
    push_cast
    ring
  have hn0 : ((count_terminals t : ℕ) : ℝ) ≠ 0 := Nat.cast_ne_zero.mpr (by omega)
  have hstepc : circTipVal (count_terminals t) (count_terminals t - 1 - j) +
      2 * Real.pi / (count_terminals t : ℝ) =
      circTipVal (count_terminals t) (count_terminals t - 1 - (j + 1)) := by
    rw [hnat]
    simp only [circTipVal]
    push_cast
    field_simp
    ring
  have hpos : 0 < 2 * Real.pi / ((count_terminals t : ℕ) : ℝ) := by
    have hppos := Real.pi_pos
    have hnpos : (0 : ℝ) < ((count_terminals t : ℕ) : ℝ) := by
      exact_mod_cast count_terminals_pos t
    positivity
  refine ⟨(terminalPaths t []).get ⟨j, hj1⟩, (terminalPaths t []).get ⟨j + 1, hj2⟩,
    rectTipVal (count_terminals t) (count_terminals t - 1 - j),
    rectTipVal (count_terminals t) (count_terminals t - 1 - (j + 1)),
    circTipVal (count_terminals t) (count_terminals t - 1 - j),
    circTipVal (count_terminals t) (count_terminals t - 1 - (j + 1)),
    ?_, ?_, hrect1, hrect2, hstep.symm, ?_, hcirc1, hcirc2, hstepc.symm, ?_⟩
  · rw [List.getElem?_eq_getElem hj1, List.get_eq_getElem]
  · rw [List.getElem?_eq_getElem hj2, List.get_eq_getElem]
  · rw [← hstep]
    linarith
  · rw [← hstepc]
    linarith

/-- Witness for C2 at the concrete two-leaf tree (`j = 0`). -/
theorem C2_witness :
    ∃ pj pk yj yk zj zk,
      (terminalPaths wtree2 [])[0]? = some pj ∧
      (terminalPaths wtree2 [])[0 + 1]? = some pk ∧
      hfind pj (rect_get_y_positions wtree2) = some yj ∧
      hfind pk (rect_get_y_positions wtree2) = some yk ∧
      yk = yj + 1 ∧ yj < yk ∧
      hfind pj (circ_get_y_positions wtree2) = some zj ∧
      hfind pk (circ_get_y_positions wtree2) = some zk ∧
      zk = zj + 2 * Real.pi / (count_terminals wtree2 : ℝ) ∧ zj < zk :=
  C2_leaf_spacing wtree2 0 (by decide)

/-! ### Claim C5 -/

/-- Claim C5 (confirmed): for every single-leaf tree, the rectangular
layout assigns the sole leaf the vertical coordinate 1, independent of
the tree's contents, and the drawing pass completes (no failed
lookup). -/
theorem C5_single_leaf (bl cf : Option ℚ) (nm : Option String) (w : Option ℚ)
    (col : Option String) (P : DrawParams) :
    hfind [] (rect_get_y_positions (Clade.mk bl cf nm w col [])) = some 1 ∧
    (rect_drawMark_draw P (Clade.mk bl cf nm w col [])).isSome = true := by
  refine ⟨?_, rect_drawMark_total P _⟩
  show hfind [] (get_y_positions_gen (rectTipVal (count_terminals (Clade.mk bl cf nm w col [])))
    (Clade.mk bl cf nm w col [])) = some 1
  rw [get_y_positions_gen]
  simp [Clade.clades, tipHeights, terminalPaths, tipEntries, hfind, rectTipVal, count_terminals]

/-! ### Claim C9 -/

/-- Claim C9 (confirmed): the maps built by `get_x_positions` and
`get_y_positions` contain every clade of the tree, and the `draw_clade`
recursion of both scripts performs all its lookups successfully (no
`KeyError` is reachable). -/
theorem C9_lookups_total (t : Clade) (P : DrawParams) :
    (∀ p, (subclade t p).isSome = true →
      (hfind p (rect_get_x_positions t)).isSome = true ∧
      (hfind p (rect_get_y_positions t)).isSome = true ∧
      (hfind p (circ_get_x_positions t)).isSome = true ∧
      (hfind p (circ_get_y_positions t)).isSome = true) ∧
    (rect_drawMark_draw P t).isSome = true ∧
    (circ_drawMark_draw P t).isSome = true := by
  refine ⟨?_, rect_drawMark_total P t, circ_drawMark_total P t⟩
  intro p hp
  obtain ⟨c, hc⟩ := Option.isSome_iff_exists.mp hp
  exact ⟨rect_x_isSome t p c hc, gen_y_isSome _ t p c hc, circ_x_isSome t p c hc,
    gen_y_isSome _ t p c hc⟩

/-- Witness for C9 at the concrete two-leaf tree and a leaf path. -/
theorem C9_witness :
    ((hfind [0] (rect_get_x_positions wtree2)).isSome = true ∧
      (hfind [0] (rect_get_y_positions wtree2)).isSome = true ∧
      (hfind [0] (circ_get_x_positions wtree2)).isSome = true ∧
      (hfind [0] (circ_get_y_positions wtree2)).isSome = true) ∧
    (rect_drawMark_draw wparams wtree2).isSome = true ∧
    (circ_drawMark_draw wparams wtree2).isSome = true := by
  obtain ⟨h1, h2, h3⟩ := C9_lookups_total wtree2 wparams
  exact ⟨h1 [0] rfl, h2, h3⟩

/-! ### Claim C3 -/

/-- A leaf with a negative branch length next to one with a positive
branch length. -/
def wtreeNeg : Clade :=
  .mk none none none none none
    [.mk (some (-1)) none (some "N") none none [],
     .mk (some 1) none (some "P") none none []]

/-- A root whose own branch length is `-3`, with one child of branch
length `3`: the cumulative depths max out at `0`, so the unit-length
fallback fires, and the unit depths inherit the root offset `-3`. -/
def wtreeRootBl : Clade :=
  .mk (some (-3)) none none none none
    [.mk (some 3) none (some "L") none none []]

def leafC : Clade := .mk none none (some "C") none none []

def innerAB : Clade := .mk none none none none none [leafA, leafB]

/-- The tree `((A,B),C)` without branch lengths. -/
def wtree3 : Clade := .mk none none none none none [innerAB, leafC]

/-- Clade predicate: the branch length read as `branch_length or 0` is
non-negative. -/
def nonnegBl (c : Clade) : Bool := decide (0 ≤ c.branch_length.getD 0)

/-- Counterexample to claim C3.  First, with a negative branch length
the cumulative x-positions strictly decrease along the root-to-`N`
edge.  Second, when the unit-length fallback of trees.py fires the
positions are offset by the root's own branch length, not equal to the
edge depth.  Third, in circTrees.py (cladogram mode, the mode the
script uses) the terminal `C` at edge depth 1 is overwritten with the
maximal leaf depth 2. -/
theorem C3_counterexample :
    (hfind [] (rect_get_x_positions wtreeNeg) = some 0 ∧
      hfind [0] (rect_get_x_positions wtreeNeg) = some (-1) ∧ (-1 : ℚ) < 0) ∧
    (hfind [0] (rect_get_x_positions wtreeRootBl) = some (-2) ∧
      edgeDepth [0] = 1 ∧ (-2 : ℚ) ≠ (1 : ℚ)) ∧
    (hfind [1] (circ_get_x_positions wtree3) = some 2 ∧
      edgeDepth [1] = 1 ∧ (2 : ℚ) ≠ (1 : ℚ)) := by
  refine ⟨⟨?_, ?_, by norm_num⟩, ⟨?_, rfl, by norm_num⟩, ⟨?_, rfl, by norm_num⟩⟩
  · norm_num [rect_get_x_positions, tree_depths, update_depths, update_depths_children,
      depth_of, dictValues, pyMax, hfind, wtreeNeg, Clade.branch_length, Clade.clades]
  · norm_num [rect_get_x_positions, tree_depths, update_depths, update_depths_children,
      depth_of, dictValues, pyMax, hfind, wtreeNeg, Clade.branch_length, Clade.clades]
  · norm_num [rect_get_x_positions, tree_depths, update_depths, update_depths_children,
      depth_of, dictValues, pyMax, hfind, wtreeRootBl, Clade.branch_length, Clade.clades]
  · norm_num [circ_get_x_positions, tree_depths, update_depths, update_depths_children,
      depth_of, hfind, wtree3, innerAB, leafA, leafB, leafC, Clade.branch_length,
      Clade.clades, isTerminalAt, subclade, treeDepthNat, terminalPaths, terminalPathsAux,
      edgeDepth]

/-- Claim C3 (amended): assume every stored branch length reads as a
non-negative value under `or 0`, and that the root's own contribution
`root.branch_length or 0` is zero.  Then along every parent-child edge
the rectangular x-positions are non-decreasing; the unit-length depth
map assigns every clade exactly its edge depth from the root; and the
polar script's cladogram mode assigns each clade its edge depth except
that every terminal is overridden with the maximal leaf depth, which
keeps the polar x-positions non-decreasing along every edge as well. -/
theorem C3_amended (t : Clade) (r : CPath) (j : Nat) (d cj : Clade)
    (hsub : subclade t r = some d) (hcj : d.clades[j]? = some cj)
    (hnn : allClades nonnegBl t = true)
    (hroot : t.branch_length.getD 0 = 0) :
    (∃ xr xc, hfind r (rect_get_x_positions t) = some xr ∧
      hfind (r ++ [j]) (rect_get_x_positions t) = some xc ∧ xr ≤ xc) ∧
    hfind r (tree_depths t true) = some ((r.length : ℚ)) ∧
    hfind r (circ_get_x_positions t) =
      some (if isTerminalAt t r then (treeDepthNat t : ℚ) else (r.length : ℚ)) ∧
    (∃ zr zc, hfind r (circ_get_x_positions t) = some zr ∧
      hfind (r ++ [j]) (circ_get_x_positions t) = some zc ∧ zr ≤ zc) := by
  have hsubc : subclade t (r ++ [j]) = some cj := by
    rw [subclade_append, hsub, Option.some_bind]
    cases d with
    | mk bl cf nm w col cs =>
      simp only [Clade.clades] at hcj
      rw [subclade_mk_cons, hcj]
      rfl
  have hterm_r : isTerminalAt t r = false := by
    unfold isTerminalAt
    rw [hsub]
    have hne : d.clades ≠ [] := by
      intro h
      rw [h] at hcj
      simp at hcj
    simpa using hne
  have hunit_r : hfind r (tree_depths t true) = some ((r.length : ℚ)) := by
    rw [tree_depths_spec t true r d hsub, pathWeight_unit t r d hsub, hroot]
    norm_num
  have hunit_rc : hfind (r ++ [j]) (tree_depths t true) = some ((r.length : ℚ) + 1) := by
    rw [tree_depths_spec t true (r ++ [j]) cj hsubc, pathWeight_unit t (r ++ [j]) cj hsubc,
      hroot]
    simp [List.length_append]
  have hrect : ∃ xr xc, hfind r (rect_get_x_positions t) = some xr ∧
      hfind (r ++ [j]) (rect_get_x_positions t) = some xc ∧ xr ≤ xc := by
    unfold rect_get_x_positions
    by_cases hmax : pyMax (dictValues (tree_depths t false)) = 0
    · rw [if_pos hmax]
      exact ⟨_, _, hunit_r, hunit_rc, by linarith⟩
    · rw [if_neg hmax]
      have h1 := tree_depths_spec t false r d hsub
      have h2 := tree_depths_spec t false (r ++ [j]) cj hsubc
      have hw := pathWeight_snoc false t r j d cj hsub hcj
      have hnncj : nonnegBl cj = true := allClades_sound nonnegBl t hnn (r ++ [j]) cj hsubc
      have hge : (0 : ℚ) ≤ cj.branch_length.getD 0 := of_decide_eq_true hnncj
      refine ⟨_, _, h1, h2, ?_⟩
      rw [hw]
      simp only [depth_of, Bool.false_eq_true, if_false]
      linarith
  have hcircval : ∀ (q : CPath) (e : Clade), subclade t q = some e →
      hfind q (circ_get_x_positions t) =
        some (if isTerminalAt t q then (treeDepthNat t : ℚ) else (q.length : ℚ)) := by
    intro q e hq
    rw [hfind_circ_x, tree_depths_spec t true q e hq, pathWeight_unit t q e hq, hroot]
    by_cases hterm : isTerminalAt t q = true
    · simp [hterm]
    · simp [hterm]
  refine ⟨hrect, hunit_r, hcircval r d hsub, ?_⟩
  refine ⟨_, _, hcircval r d hsub, hcircval (r ++ [j]) cj hsubc, ?_⟩
  rw [hterm_r]
  simp only [Bool.false_eq_true, if_false]
  by_cases hc : isTerminalAt t (r ++ [j]) = true
  · rw [if_pos hc]
    have hclnil : cj.clades = [] := by
      unfold isTerminalAt at hc
      rw [hsubc] at hc
      exact List.isEmpty_iff.mp hc
    have hmem : (r ++ [j]) ∈ terminalPaths t [] := by
      have := terminalPaths_complete t [] (r ++ [j]) cj hsubc hclnil
      simpa using this
    have hle : (r ++ [j]).length ≤ treeDepthNat t := leafDepth_le_treeDepth t (r ++ [j]) hmem
    have hlen : (r ++ [j]).length = r.length + 1 := by simp
    have hcast : (r.length : ℚ) + 1 ≤ (treeDepthNat t : ℚ) := by
      rw [hlen] at hle
      exact_mod_cast hle
    linarith
  · rw [if_neg hc]
    have : ((r ++ [j]).length : ℚ) = (r.length : ℚ) + 1 := by
      simp [List.length_append]
    rw [this]
    linarith

/-- Witness for the amended C3 at the tree `((A,B),C)` and the edge
from the root to `(A,B)`. -/
theorem C3_amended_witness :
    (∃ xr xc, hfind [] (rect_get_x_positions wtree3) = some xr ∧
      hfind ([] ++ [0]) (rect_get_x_positions wtree3) = some xc ∧ xr ≤ xc) ∧
    hfind [] (tree_depths wtree3 true) = some ((List.length ([] : CPath) : ℚ)) ∧
    hfind [] (circ_get_x_positions wtree3) =
      some (if isTerminalAt wtree3 [] then (treeDepthNat wtree3 : ℚ)
        else ((List.length ([] : CPath) : ℚ))) ∧
    (∃ zr zc, hfind [] (circ_get_x_positions wtree3) = some zr ∧
      hfind ([] ++ [0]) (circ_get_x_positions wtree3) = some zc ∧ zr ≤ zc) :=
  C3_amended wtree3 [] 0 wtree3 innerAB rfl rfl
    (by norm_num [allClades, allCladesList, nonnegBl, wtree3, innerAB, leafA, leafB, leafC,
      Clade.branch_length])
    rfl

/-! ### Claim C4 -/

def leafX : Clade := .mk none none (some "X") none none []

def leafY : Clade := .mk none none (some "Y") none none []

/-- A two-leaf tree with taxa `X` and `Y`. -/
def t4 : Clade := .mk none none none none none [leafX, leafY]

/-- Parameters with highlight set `['X']` and the defaults
`markColor='r'`, `markWeight='bold'`. -/
def P4 : DrawParams := ⟨Clade.name, ["X"], "r", "bold", none, true, 1⟩

/-- Counterexample to claim C4: the rectangular script does highlight
the marked leaf `X` in red/bold, but the polar script draws no taxon
label at all — its label block (circTrees.py lines 160-173) is a quoted
string, so the marked leaf is silently unlabeled there. -/
theorem C4_counterexample :
    ∃ rcmds ccmds,
      rect_drawMark_draw P4 t4 = some rcmds ∧
      circ_drawMark_draw P4 t4 = some ccmds ∧
      "X" ∈ P4.mark ∧
      findLabelCmd rcmds [0] = some (" X", "r", some "bold") ∧
      countTaxonLabels ccmds = 0 := by
  obtain ⟨rcmds, hr⟩ := Option.isSome_iff_exists.mp (rect_drawMark_total P4 t4)
  obtain ⟨ccmds, hc⟩ := Option.isSome_iff_exists.mp (circ_drawMark_total P4 t4)
  refine ⟨rcmds, ccmds, hr, hc, by simp [P4], ?_, ?_⟩
  · have hr2 : rect_draw_clade P4 (rect_get_x_positions t4) (rect_get_y_positions t4) t4 []
        0 "k" P4.rcLineWidth = some rcmds := hr
    have hspec := (rect_draw_spec P4 (rect_get_x_positions t4) (rect_get_y_positions t4)
      t4 [] 0 "k" P4.rcLineWidth rcmds hr2).2 [0] leafX rfl
    have hexp : expectedLabel P4 leafX = some (" X", "r", some "bold") := by
      simp [expectedLabel, P4, leafX, Clade.name]
    rw [← hexp]
    simpa using hspec.2
  · have hc2 : circ_draw_clade P4 (hmapToReal (circ_get_x_positions t4))
        (circ_get_y_positions t4) t4 [] 0 "k" (P4.rcLineWidth : ℝ) = some ccmds := hc
    exact (circ_draw_spec P4 (hmapToReal (circ_get_x_positions t4)) (circ_get_y_positions t4)
      t4 [] 0 "k" (P4.rcLineWidth : ℝ) ccmds hc2).2.2

/-- Claim C4 (amended): in the rectangular script every clade whose
label is neither `None` nor the class name `'Clade'` receives a text
command; its colour and weight are `markColor`/`markWeight` exactly
when the label is in `mark`, and otherwise `get_label_color` with no
weight (this is `expectedLabel`); the polar script draws no taxon
labels whatsoever. -/
theorem C4_amended (t : Clade) (P : DrawParams) (r : CPath) (d : Clade)
    (hsub : subclade t r = some d) :
    findLabelCmd ((rect_drawMark_draw P t).getD []) r = expectedLabel P d ∧
    countTaxonLabels ((circ_drawMark_draw P t).getD []) = 0 := by
  obtain ⟨rcmds, hr⟩ := Option.isSome_iff_exists.mp (rect_drawMark_total P t)
  obtain ⟨ccmds, hc⟩ := Option.isSome_iff_exists.mp (circ_drawMark_total P t)
  rw [hr, hc]
  simp only [Option.getD_some]
  constructor
  · have hr2 : rect_draw_clade P (rect_get_x_positions t) (rect_get_y_positions t) t []
        0 "k" P.rcLineWidth = some rcmds := hr
    have hspec := (rect_draw_spec P (rect_get_x_positions t) (rect_get_y_positions t)
      t [] 0 "k" P.rcLineWidth rcmds hr2).2 r d hsub
    simpa using hspec.2
  · have hc2 : circ_draw_clade P (hmapToReal (circ_get_x_positions t))
        (circ_get_y_positions t) t [] 0 "k" (P.rcLineWidth : ℝ) = some ccmds := hc
    exact (circ_draw_spec P (hmapToReal (circ_get_x_positions t)) (circ_get_y_positions t)
      t [] 0 "k" (P.rcLineWidth : ℝ) ccmds hc2).2.2

/-- Witness for the amended C4 at the marked leaf `X` of the two-leaf
tree. -/
theorem C4_amended_witness :
    findLabelCmd ((rect_drawMark_draw P4 t4).getD []) [0] = expectedLabel P4 leafX ∧
    countTaxonLabels ((circ_drawMark_draw P4 t4).getD []) = 0 :=
  C4_amended t4 P4 [0] leafX rfl

/-! ### Claim C6 -/

/-- An iterable value of one of the dispatchable shapes reaches
`getattr(plt, str(key))` with the keyword as function name. -/
theorem processKwarg_ok (k : String) (v : PyVal) (hit : PyVal.iterable v = true)
    (hd : dispatchable v = true) :
    ∃ call : PlotCall, processKwarg k v = .ok call ∧ call.func = k := by
  cases v with
  | pyint n => simp [PyVal.iterable] at hit
  | pydict d => exact ⟨⟨k, [], d⟩, rfl, rfl⟩
  | pystr s =>
    simp only [dispatchable] at hd
    cases h0 : (PyVal.elements (PyVal.pystr s))[0]? with
    | none => rw [h0] at hd; simp at hd
    | some v0 =>
      rw [h0] at hd
      cases v0 with
      | pytuple t0 =>
        cases h1 : (PyVal.elements (PyVal.pystr s))[1]? with
        | none => rw [h1] at hd; simp at hd
        | some v1 =>
          rw [h1] at hd
          cases v1 with
          | pydict d1 =>
            refine ⟨⟨k, t0, d1⟩, ?_, rfl⟩
            simp only [processKwarg, PyVal.iterable, if_true, h0, h1]
          | pyint m => simp at hd
          | pystr s1 => simp at hd
          | pytuple l1 => simp at hd
      | pyint m =>
        refine ⟨⟨k, PyVal.elements (PyVal.pystr s), []⟩, ?_, rfl⟩
        simp only [processKwarg, PyVal.iterable, if_true, h0]
      | pystr s0 =>
        refine ⟨⟨k, PyVal.elements (PyVal.pystr s), []⟩, ?_, rfl⟩
        simp only [processKwarg, PyVal.iterable, if_true, h0]
      | pydict d0 =>
        refine ⟨⟨k, PyVal.elements (PyVal.pystr s), []⟩, ?_, rfl⟩
        simp only [processKwarg, PyVal.iterable, if_true, h0]
  | pytuple l =>
    simp only [dispatchable] at hd
    cases h0 : (PyVal.elements (PyVal.pytuple l))[0]? with
    | none => rw [h0] at hd; simp at hd
    | some v0 =>
      rw [h0] at hd
      cases v0 with
      | pytuple t0 =>
        cases h1 : (PyVal.elements (PyVal.pytuple l))[1]? with
        | none => rw [h1] at hd; simp at hd
        | some v1 =>
          rw [h1] at hd
          cases v1 with
          | pydict d1 =>
            refine ⟨⟨k, t0, d1⟩, ?_, rfl⟩
            simp only [processKwarg, PyVal.iterable, if_true, h0, h1]
          | pyint m => simp at hd
          | pystr s1 => simp at hd
          | pytuple l1 => simp at hd
      | pyint m =>
        refine ⟨⟨k, PyVal.elements (PyVal.pytuple l), []⟩, ?_, rfl⟩
        simp only [processKwarg, PyVal.iterable, if_true, h0]
      | pystr s0 =>
        refine ⟨⟨k, PyVal.elements (PyVal.pytuple l), []⟩, ?_, rfl⟩
        simp only [processKwarg, PyVal.iterable, if_true, h0]
      | pydict d0 =>
        refine ⟨⟨k, PyVal.elements (PyVal.pytuple l), []⟩, ?_, rfl⟩
        simp only [processKwarg, PyVal.iterable, if_true, h0]

/-- The whole kwargs loop succeeds on well-shaped arguments, producing
one dispatched call per keyword, named after it. -/
theorem processKwargs_ok : ∀ (kw : List (String × PyVal)),
    (∀ e ∈ kw, PyVal.iterable e.2 = true ∧ dispatchable e.2 = true) →
    ∃ calls, processKwargs kw = .ok calls ∧ calls.map PlotCall.func = kw.map Prod.fst
  | [], _ => ⟨[], rfl, rfl⟩
  | (k, v) :: rest, hall => by
    obtain ⟨hit, hd⟩ := hall (k, v) (by simp)
    obtain ⟨call, hcall, hfunc⟩ := processKwarg_ok k v hit hd
    obtain ⟨calls, hcalls, hmap⟩ := processKwargs_ok rest (fun e he => hall e (by simp [he]))
    refine ⟨call :: calls, ?_, by simp [hmap, hfunc]⟩
    simp only [processKwargs, hcall, hcalls, Except.map]

/-- Counterexample to claim C6: the empty tuple is iterable, yet it is
not dispatched to the plotting library — `value[0]` raises an
uncaught `IndexError`. -/
theorem C6_counterexample :
    PyVal.iterable (PyVal.pytuple []) = true ∧
    processKwargs [("axis", PyVal.pytuple [])] = .error .indexError :=
  ⟨rfl, rfl⟩

/-- Claim C6 (amended): a non-iterable keyword value raises `ValueError`
with a message naming the key and the value; an iterable value is
dispatched (with the keyword as the plotting-library function name)
only when it additionally has one of the dispatchable shapes — a dict,
a nonempty sequence not starting with a tuple, or a sequence of a tuple
followed by a dict; and a whole argument list of such values is
dispatched in full.  Iterable values outside those shapes instead
escape with `IndexError` or `TypeError`. -/
theorem C6_amended (kw : List (String × PyVal)) (k : String) (v : PyVal) :
    (PyVal.iterable v = false →
      processKwarg k v = .error (.valueError (kwargErrorMsg k v)) ∧
      ∃ s1 s2, kwargErrorMsg k v = s1 ++ k ++ "=" ++ pyStr v ++ s2) ∧
    (PyVal.iterable v = true → dispatchable v = true →
      ∃ call : PlotCall, processKwarg k v = .ok call ∧ call.func = k) ∧
    ((∀ e ∈ kw, PyVal.iterable e.2 = true ∧ dispatchable e.2 = true) →
      ∃ calls, processKwargs kw = .ok calls ∧ calls.map PlotCall.func = kw.map Prod.fst) := by
  refine ⟨?_, processKwarg_ok k v, processKwargs_ok kw⟩
  intro hiter
  constructor
  · simp only [processKwarg, hiter, Bool.false_eq_true, if_false]
  · exact ⟨"Keyword argument \"",
      "\" is not in the format pyplot_option_name=(tuple), pyplot_option_name=(tuple, dict), or pyplot_option_name=(dict) ",
      rfl⟩

/-- Witness for the amended C6: a numeric value raises the
`ValueError`; a dict value is dispatched, alone and in a list. -/
theorem C6_amended_witness :
    (processKwarg "axis" (PyVal.pyint 3) =
        .error (.valueError (kwargErrorMsg "axis" (PyVal.pyint 3))) ∧
      ∃ s1 s2, kwargErrorMsg "axis" (PyVal.pyint 3) =
        s1 ++ "axis" ++ "=" ++ pyStr (PyVal.pyint 3) ++ s2) ∧
    (∃ call : PlotCall, processKwarg "rc" (PyVal.pydict [("lw", PyVal.pyint 1)]) = .ok call ∧
      call.func = "rc") ∧
    (∃ calls, processKwargs [("rc", PyVal.pydict [("lw", PyVal.pyint 1)])] = .ok calls ∧
      calls.map PlotCall.func =
        [("rc", PyVal.pydict [("lw", PyVal.pyint 1)])].map Prod.fst) := by
  refine ⟨(C6_amended [] "axis" (PyVal.pyint 3)).1 rfl,
    (C6_amended [] "rc" (PyVal.pydict [("lw", PyVal.pyint 1)])).2.1 rfl rfl,
    (C6_amended [("rc", PyVal.pydict [("lw", PyVal.pyint 1)])] "x" (PyVal.pyint 0)).2.2 ?_⟩
  intro e he
  simp only [List.mem_singleton] at he
  subst he
  exact ⟨rfl, rfl⟩

/-! ### Claim C7 -/

/-- Claim C7 (code bug): when neither matplotlib nor pylab can be
imported, neither script raises the intended dependency-missing error.
The module level of each script already does `import matplotlib as plt`
and `import pylab`, so loading aborts with a plain `ImportError` before
`drawMark` can run; and even if `drawMark`'s try/except chain were
reached, the name `MissingPythonDependencyError` is neither imported
nor defined in either script, so the `raise` statement itself fails
with `NameError`, not with the fixed-message dependency error. -/
theorem C7_missing_dependency_bug :
    treesPy_module_load true false false = .importError "matplotlib" ∧
    circTreesPy_module_load true true false false = .importError "matplotlib" ∧
    treesPyGlobalNames.contains "MissingPythonDependencyError" = false ∧
    circTreesPyGlobalNames.contains "MissingPythonDependencyError" = false ∧
    drawMark_import_plt false false treesPyGlobalNames =
      .nameError "MissingPythonDependencyError" ∧
    drawMark_import_plt false false circTreesPyGlobalNames =
      .nameError "MissingPythonDependencyError" :=
  ⟨rfl, rfl, rfl, rfl, rfl, rfl⟩

/-! ### Claim C8 -/

/-- Claim C8 (confirmed): every `drawTree` run of either script reads
the tree from the file `treeName + '.nwk'` in Newick format, and its
final effect writes the figure to `treeName + '.' + outFormat` with the
caller-specified format and DPI. -/
theorem C8_io_paths (treeName : String) (outX outY : ℚ) (outFormat : String) (outDPI : ℚ)
    (ladderize : Bool) (fontSize lineWidth : ℚ) (mark : List String) (m0 m1 : String) :
    PltEffect.readTree (treeName ++ ".nwk") "newick" ∈
      trees_drawTree treeName outX outY outFormat outDPI ladderize fontSize lineWidth mark ∧
    (trees_drawTree treeName outX outY outFormat outDPI ladderize fontSize
        lineWidth mark).getLast? =
      some (.savefig (treeName ++ "." ++ outFormat) outFormat outDPI) ∧
    PltEffect.readTree (treeName ++ ".nwk") "newick" ∈
      circTrees_drawTree treeName outX outY outFormat outDPI ladderize fontSize lineWidth
        mark m0 m1 ∧
    (circTrees_drawTree treeName outX outY outFormat outDPI ladderize fontSize lineWidth
        mark m0 m1).getLast? =
      some (.savefig (treeName ++ "." ++ outFormat) outFormat outDPI) := by
  cases ladderize <;>
    simp [trees_drawTree, circTrees_drawTree]

/-! ### Claim C10 -/

def leafL : Clade := .mk none none (some "L") none none []

/-- A coloured clade (blue) sitting inside a coloured clade (red). -/
def midB : Clade := .mk none none none none (some "b") [leafL]

/-- A red root containing a blue internal clade containing a colourless
leaf. -/
def wtreeNested : Clade := .mk none none none none (some "r") [midB]

/-- Clade predicate: carries no colour. -/
def noColor (c : Clade) : Bool := c.color.isNone

/-- Counterexample to claim C10: the root carries colour `'r'` and the
leaf at `[0, 0]` carries no colour of its own, yet its edge is drawn in
`'b'` — the colour of the nearest coloured ancestor, not the colour of
an arbitrary coloured ancestor. -/
theorem C10_counterexample :
    ∃ rcmds ccmds,
      rect_drawMark_draw wparams wtreeNested = some rcmds ∧
      circ_drawMark_draw wparams wtreeNested = some ccmds ∧
      wtreeNested.color = some "r" ∧
      subclade wtreeNested [0, 0] = some leafL ∧ leafL.color = none ∧
      findHlineColor rcmds [0, 0] = some "b" ∧
      findRayColor ccmds [0, 0] = some "b" ∧
      ("b" : String) ≠ "r" := by
  obtain ⟨rcmds, hr⟩ := Option.isSome_iff_exists.mp (rect_drawMark_total wparams wtreeNested)
  obtain ⟨ccmds, hc⟩ := Option.isSome_iff_exists.mp (circ_drawMark_total wparams wtreeNested)
  have hr2 : rect_draw_clade wparams (rect_get_x_positions wtreeNested)
      (rect_get_y_positions wtreeNested) wtreeNested [] 0 "k" wparams.rcLineWidth =
      some rcmds := hr
  have hc2 : circ_draw_clade wparams (hmapToReal (circ_get_x_positions wtreeNested))
      (circ_get_y_positions wtreeNested) wtreeNested [] 0 "k" (wparams.rcLineWidth : ℝ) =
      some ccmds := hc
  have hspecR := ((rect_draw_spec wparams (rect_get_x_positions wtreeNested)
    (rect_get_y_positions wtreeNested) wtreeNested [] 0 "k" wparams.rcLineWidth
    rcmds hr2).2 [0, 0] leafL rfl).1
  have hspecC := (circ_draw_spec wparams (hmapToReal (circ_get_x_positions wtreeNested))
    (circ_get_y_positions wtreeNested) wtreeNested [] 0 "k" (wparams.rcLineWidth : ℝ)
    ccmds hc2).2.1 [0, 0] leafL rfl
  have heff : effColor wtreeNested "k" [0, 0] = "b" := rfl
  rw [heff] at hspecR hspecC
  refine ⟨rcmds, ccmds, hr, hc, rfl, rfl, rfl, ?_, ?_, by decide⟩
  · simpa using hspecR
  · simpa using hspecC

/-- Claim C10 (amended): the branch drawn for the clade reached by path
`r` has the colour of the nearest coloured ancestor-or-self (base `'k'`
when none), in both scripts — so a coloured clade propagates its colour
exactly to those descendants with no other coloured clade in between;
and on an otherwise colourless tree the polar `drawTree` draws the
entire subtree under the common ancestor of its two marked taxa in
red. -/
theorem C10_amended (t : Clade) (P : DrawParams) :
    (∀ r d, subclade t r = some d →
      findHlineColor ((rect_drawMark_draw P t).getD []) r = some (effColor t "k" r) ∧
      findRayColor ((circ_drawMark_draw P t).getD []) r = some (effColor t "k" r)) ∧
    (∀ p a colr q d, subclade t p = some a → a.color = some colr →
      subclade a q = some d →
      (∀ s cq, s ≠ [] → CPath.under s q → subclade a s = some cq → cq.color = none) →
      findHlineColor ((rect_drawMark_draw P t).getD []) (p ++ q) = some colr ∧
      findRayColor ((circ_drawMark_draw P t).getD []) (p ++ q) = some colr) ∧
    (∀ t1 t2 pa r,
      (∀ q cq, subclade t q = some cq → cq.color = none) →
      common_ancestor_path t t1 t2 = some pa →
      (subclade t (pa ++ r)).isSome = true →
      findRayColor ((circ_drawTree_draw P t t1 t2).getD []) (pa ++ r) = some "r") := by
  have hgen : ∀ r d, subclade t r = some d →
      findHlineColor ((rect_drawMark_draw P t).getD []) r = some (effColor t "k" r) ∧
      findRayColor ((circ_drawMark_draw P t).getD []) r = some (effColor t "k" r) := by
    intro r d hsub
    obtain ⟨rcmds, hr⟩ := Option.isSome_iff_exists.mp (rect_drawMark_total P t)
    obtain ⟨ccmds, hc⟩ := Option.isSome_iff_exists.mp (circ_drawMark_total P t)
    rw [hr, hc]
    simp only [Option.getD_some]
    have hr2 : rect_draw_clade P (rect_get_x_positions t) (rect_get_y_positions t) t []
        0 "k" P.rcLineWidth = some rcmds := hr
    have hc2 : circ_draw_clade P (hmapToReal (circ_get_x_positions t))
        (circ_get_y_positions t) t [] 0 "k" (P.rcLineWidth : ℝ) = some ccmds := hc
    have h1 := ((rect_draw_spec P (rect_get_x_positions t) (rect_get_y_positions t)
      t [] 0 "k" P.rcLineWidth rcmds hr2).2 r d hsub).1
    have h2 := (circ_draw_spec P (hmapToReal (circ_get_x_positions t))
      (circ_get_y_positions t) t [] 0 "k" (P.rcLineWidth : ℝ) ccmds hc2).2.1 r d hsub
    exact ⟨by simpa using h1, by simpa using h2⟩
  refine ⟨hgen, ?_, ?_⟩
  · intro p a colr q d hpa hacol hq hcl
    have hsub : subclade t (p ++ q) = some d := by
      rw [subclade_append, hpa, Option.some_bind]
      exact hq
    have heff : effColor t "k" (p ++ q) = colr := by
      rw [effColor_append p t "k" q a hpa, effColor_path_colorless q a _ hcl]
      simp [nodeColor, hacol]
    have h := hgen (p ++ q) d hsub
    rw [heff] at h
    exact h
  · intro t1 t2 pa r hcl hca hval
    unfold circ_drawTree_draw
    rw [hca]
    obtain ⟨ccmds, hc⟩ :=
      Option.isSome_iff_exists.mp (circ_drawMark_total P (setColorAt t pa "r"))
    show findRayColor ((circ_drawMark_draw P (setColorAt t pa "r")).getD []) (pa ++ r) =
      some "r"
    rw [hc]
    simp only [Option.getD_some]
    have hval2 : (subclade (setColorAt t pa "r") (pa ++ r)).isSome = true := by
      rw [subclade_setColorAt_isSome]
      exact hval
    obtain ⟨d2, hd2⟩ := Option.isSome_iff_exists.mp hval2
    have hc2 : circ_draw_clade P (hmapToReal (circ_get_x_positions (setColorAt t pa "r")))
        (circ_get_y_positions (setColorAt t pa "r")) (setColorAt t pa "r") [] 0 "k"
        (P.rcLineWidth : ℝ) = some ccmds := hc
    have hB := (circ_draw_spec P (hmapToReal (circ_get_x_positions (setColorAt t pa "r")))
      (circ_get_y_positions (setColorAt t pa "r")) (setColorAt t pa "r") [] 0 "k"
      (P.rcLineWidth : ℝ) ccmds hc2).2.1 (pa ++ r) d2 hd2
    have hpav := common_ancestor_path_valid t t1 t2 pa hca
    have heff := effColor_setColorAt pa t "r" "k" r hcl hpav
    rw [heff] at hB
    simpa using hB

/-- Witness for the amended C10: the blue clade of the nested tree wins
over the red root for its colourless leaf, and on the colourless tree
`((A,B),C)` the polar `drawTree` paints `A` (inside the `A`,`B`
common-ancestor subtree `(A,B)`) red. -/
theorem C10_amended_witness :
    (findHlineColor ((rect_drawMark_draw wparams wtreeNested).getD []) [0] =
        some (effColor wtreeNested "k" [0]) ∧
      findRayColor ((circ_drawMark_draw wparams wtreeNested).getD []) [0] =
        some (effColor wtreeNested "k" [0])) ∧
    (findHlineColor ((rect_drawMark_draw wparams wtreeNested).getD []) ([0] ++ [0]) =
        some "b" ∧
      findRayColor ((circ_drawMark_draw wparams wtreeNested).getD []) ([0] ++ [0]) =
        some "b") ∧
    findRayColor ((circ_drawTree_draw wparams wtree3 "A" "B").getD []) ([0] ++ [0]) =
      some "r" := by
  refine ⟨(C10_amended wtreeNested wparams).1 [0] midB rfl,
    (C10_amended wtreeNested wparams).2.1 [0] midB "b" [0] leafL rfl rfl rfl ?_,
    (C10_amended wtree3 wparams).2.2 "A" "B" [0] [0] ?_ rfl rfl⟩
  · intro s cq hs hu hq
    obtain ⟨w, hw⟩ := hu
    cases s with
    | nil => exact absurd rfl hs
    | cons j s' =>
      simp only [List.cons_append, List.cons.injEq] at hw
      obtain ⟨hj, hnil⟩ := hw
      subst hj
      have hs' : s' = [] := by
        cases s' with
        | nil => rfl
        | cons a b => simp at hnil
      subst hs'
      have h0 : subclade midB [0] = some leafL := rfl
      rw [h0] at hq
      injection hq with hq
      rw [← hq]
      rfl
  · intro q cq hq
    have h := allClades_sound noColor wtree3 rfl q cq hq
    exact Option.isNone_iff_eq_none.mp h
